import Mathlib

/-!
Shallow embedding of the core logic of `src/app.py` (a batch BPM converter):
filename BPM detection (`guess_bpm_from_name`), tempo-ratio stage planning
(`atempo_chain`), output-name sanitization (`_sanitize_base`, `safe_out_path`)
and the sequential batch loop (`ConvertTask.run`).

Strings are modelled as `List Char` with ASCII character classes (the Python
regexes are Unicode-aware, but every behaviour settled here is exercised and
decided on ASCII data).  Python floats in `atempo_chain` are modelled by `ℚ`:
the loop only divides by 2.0 and 0.5, which are exact operations on binary
floating point, so the rational model tracks the float computation exactly up
to the single rounding of the initial division, which is far below every
margin used in the theorems.  Filesystem and subprocess effects of the batch
loop are supplied as per-file oracle fields of `FileEnv`.
-/

/-- ASCII model of the regex class `\s` (Python whitespace). -/
def pyIsSpace (c : Char) : Bool :=
  c = ' ' || c = '\t' || c = '\n' || c = '\r' || c = '\x0b' || c = '\x0c'

/-- The separator class `[\s_\-]` of `RE_BPM_TAGGED`. -/
def isTagSep (c : Char) : Bool := pyIsSpace c || c = '_' || c = '-'

/-- ASCII model of the regex class `\w` (word characters). -/
def isWordChar (c : Char) : Bool := c.isAlpha || c.isDigit || c = '_'

/-- The file-name part of a posix path: everything after the last slash
(pathlib `Path.name` for ordinary file paths). -/
def pyName (p : List Char) : List Char :=
  (p.reverse.takeWhile (fun c => c ≠ '/')).reverse

/-- Index of the last dot of a file name when it separates a non-empty stem
from a non-empty extension: pathlib accepts the last dot at index `i` only
when `0 < i < len - 1`. -/
def pyExtIdx (name : List Char) : Option Nat :=
  match name.reverse.findIdx? (fun c => c = '.') with
  | some j =>
    if 0 < name.length - 1 - j ∧ name.length - 1 - j + 1 < name.length then
      some (name.length - 1 - j)
    else none
  | none => none

/-- pathlib `Path(name).stem` for a bare file name. -/
def pyStem (name : List Char) : List Char :=
  match pyExtIdx name with
  | some i => name.take i
  | none => name

/-- pathlib `Path(name).suffix` for a bare file name. -/
def pySuffix (name : List Char) : List Char :=
  match pyExtIdx name with
  | some i => name.drop i
  | none => []

/-- Python `str.lower()` on ASCII data. -/
def toLowerStr (s : List Char) : List Char := s.map Char.toLower

def digitVal (c : Char) : Nat := c.toNat - '0'.toNat

/-- Python `int(...)` on a non-empty digit string. -/
def digitsToNat (ds : List Char) : Nat := ds.foldl (fun a c => a * 10 + digitVal c) 0

/-- Maximal digit runs of a string in order; `cur` is the run being read. -/
def digitRunsAux (cur : List Char) : List Char → List (List Char)
  | [] => if cur = [] then [] else [cur]
  | c :: cs =>
    if c.isDigit then digitRunsAux (cur ++ [c]) cs
    else (if cur = [] then [] else [cur]) ++ digitRunsAux [] cs

def digitRuns (s : List Char) : List (List Char) := digitRunsAux [] s

/-- `RE_ANY_NUMBER_2_3.findall`: a match of `(?<!\d)(\d{2,3})(?!\d)` is exactly
a maximal digit run of length 2 or 3; the values are returned in order. -/
def findNums23 (s : List Char) : List Nat :=
  ((digitRuns s).filter (fun r => r.length = 2 || r.length = 3)).map digitsToNat

/-- A match of `RE_BPM_TAGGED = (?i)bpm[\s_\-]*([0-9]{2,3})(?!\d)` anchored at
the start of `s`: the literal token bpm (case-insensitive), a greedy run of
separators, then a maximal digit run which must have length 2 or 3 (a longer
run fails the `(?!\d)` lookahead for both the 3- and the 2-digit attempt, and
separators cannot be given back because they are not digits). -/
def taggedMatchAt (s : List Char) : Option Nat :=
  match s with
  | b :: p :: m :: rest =>
    if b.toLower = 'b' ∧ p.toLower = 'p' ∧ m.toLower = 'm' then
      let ds := (rest.dropWhile isTagSep).takeWhile Char.isDigit
      if ds.length = 2 ∨ ds.length = 3 then some (digitsToNat ds) else none
    else none
  | _ => none

/-- `RE_BPM_TAGGED.search`: the leftmost match wins. -/
def RE_BPM_TAGGED_search : List Char → Option Nat
  | [] => none
  | c :: cs =>
    match taggedMatchAt (c :: cs) with
    | some v => some v
    | none => RE_BPM_TAGGED_search cs

/-- All values of `RE_BPM_TAGGED` matches anywhere in `s` (one per start
position).  This follows the claim's words "filename containing an explicit
bpm tag"; the code itself only ever uses the leftmost match. -/
def taggedValuesAll : List Char → List Nat
  | [] => []
  | c :: cs =>
    (match taggedMatchAt (c :: cs) with
     | some v => [v]
     | none => []) ++ taggedValuesAll cs

/-- Python `str.rfind`: the largest start index at which `needle` occurs in
`hay`, or -1 when it does not occur. -/
def strRfind (hay needle : List Char) : Int :=
  match ((List.range (hay.length + 1)).filter
      (fun i => needle.isPrefixOf (hay.drop i))).getLast? with
  | some i => (i : Int)
  | none => -1

/-- Python substring test `needle in hay`. -/
def strContains (hay needle : List Char) : Bool := 0 ≤ strRfind hay needle

/-- The keyword tuple of `guess_bpm_from_name`. -/
def KEYWORDS : List (List Char) :=
  ["loop".toList, "drum".toList, "beat".toList, "kick".toList, "snare".toList,
   "hats".toList, "perc".toList, "groove".toList]

def hasKeyword (base : List Char) : Bool :=
  KEYWORDS.any (fun k => strContains (toLowerStr base) k)

/-- The score of candidate `c`:
`score = 2 * (len(base) - base.lower().rfind(str(c)))` when the candidate's
decimal string occurs (plus 50 when a keyword occurs in the lowered base). -/
def bpmScore (base : List Char) (c : Nat) : Int :=
  (if 0 ≤ strRfind (toLowerStr base) (Nat.toDigits 10 c) then
    2 * ((base.length : Int) - strRfind (toLowerStr base) (Nat.toDigits 10 c))
   else 0) +
  (if hasKeyword base then 50 else 0)

/-- The ascending order used by `scored.sort(key=lambda t: (t[0], base.rfind(str(t[1]))))`:
lexicographic on (score, rfind over the unlowered base). -/
def bpmSortLE (base : List Char) (a b : Int × Nat) : Prop :=
  a.1 < b.1 ∨ (a.1 = b.1 ∧ strRfind base (Nat.toDigits 10 a.2) ≤ strRfind base (Nat.toDigits 10 b.2))

instance (base : List Char) : DecidableRel (bpmSortLE base) := fun a b => by
  unfold bpmSortLE
  infer_instance

/-- The tagged path of `guess_bpm_from_name`: the value of the leftmost
`RE_BPM_TAGGED` match when it lies in `BPM_RANGE = (40, 220)`. -/
def guessTagged (base : List Char) : Option Nat :=
  match RE_BPM_TAGGED_search base with
  | some b => if 40 ≤ b ∧ b ≤ 220 then some b else none
  | none => none

/-- `candidates = [n for n in nums if BPM_RANGE[0] <= n <= BPM_RANGE[1]]`. -/
def guessCandidates (base : List Char) : List Nat :=
  (findNums23 base).filter (fun n => 40 ≤ n && n ≤ 220)

/-- The `scored` list of `guess_bpm_from_name`. -/
def guessScored (base : List Char) : List (Int × Nat) :=
  (guessCandidates base).map (fun c => (bpmScore base c, c))

/-- `guess_bpm_from_name` of `src/app.py`.  Python's stable ascending sort
followed by `scored[-1]` is modelled by (stable) insertion sort followed by
`getLast?`; a stable sort's output is unique, so any stable algorithm agrees
with CPython's. -/
def guess_bpm_from_name (name : List Char) : Option Nat :=
  let base := pyStem (pyName name)
  match guessTagged base with
  | some b => some b
  | none =>
    if guessCandidates base = [] then none
    else
      match (List.insertionSort (bpmSortLE base) (guessScored base)).getLast? with
      | some t => some t.2
      | none => none

/-- The scoring described by the claim for C2, written from the claim's words
(not from the code): base score 2 × (distance from the start of the string to
the candidate's last occurrence), so that later occurrences score higher, plus
the uniform +50 keyword bonus. -/
def claimC2Score (base : List Char) (c : Nat) : Int :=
  (if 0 ≤ strRfind (toLowerStr base) (Nat.toDigits 10 c) then
    2 * strRfind (toLowerStr base) (Nat.toDigits 10 c)
   else 0) +
  (if hasKeyword base then 50 else 0)

/-- Loop `while r > 2.0: factors.append(2.0); r /= 2.0` of `atempo_chain`:
the extracted factors and the remaining ratio. -/
def extractUp (r : ℚ) : List ℚ × ℚ :=
  if h : 2 < r then
    let p := extractUp (r / 2)
    (2 :: p.1, p.2)
  else ([], r)
termination_by (⌈r⌉).toNat
decreasing_by
  have h2 : (2 : ℤ) < ⌈r⌉ := by exact_mod_cast lt_of_lt_of_le h (Int.le_ceil r)
  have hle : ⌈r / 2⌉ ≤ ⌈r⌉ - 1 := by
    have hr1 : r / 2 ≤ r - 1 := by linarith
    calc ⌈r / 2⌉ ≤ ⌈r - 1⌉ := Int.ceil_mono hr1
    _ = ⌈r⌉ - 1 := by exact_mod_cast Int.ceil_sub_int r 1
  omega

/-- Loop `while r < 0.5: factors.append(0.5); r /= 0.5` of `atempo_chain`.
The `0 < r` conjunct in the guard records the invariant established by
`atempo_chain`'s `ratio <= 0` check (for `r ≤ 0` the Python loop would not
terminate, and that branch is unreachable). -/
def extractDown (r : ℚ) : List ℚ × ℚ :=
  if h : 0 < r ∧ r < 1 / 2 then
    let p := extractDown (r / (1 / 2))
    ((1 : ℚ) / 2 :: p.1, p.2)
  else ([], r)
termination_by (⌈1 / r⌉).toNat
decreasing_by
  obtain ⟨h0, hhalf⟩ := h
  have hinv : (2 : ℚ) < 1 / r := by
    rw [lt_div_iff h0]
    linarith
  have h2 : (2 : ℤ) < ⌈1 / r⌉ := by exact_mod_cast lt_of_lt_of_le hinv (Int.le_ceil (1 / r))
  have heq : 1 / (r / (1 / 2)) = (1 / r) / 2 := by
    field_simp
  have hle : ⌈1 / (r / (1 / 2))⌉ ≤ ⌈1 / r⌉ - 1 := by
    rw [heq]
    have hr1 : (1 / r) / 2 ≤ (1 / r) - 1 := by linarith
    calc ⌈(1 / r) / 2⌉ ≤ ⌈(1 / r) - 1⌉ := Int.ceil_mono hr1
    _ = ⌈1 / r⌉ - 1 := by exact_mod_cast Int.ceil_sub_int (1 / r) 1
  omega

/-- The stage-factor list of `atempo_chain` of `src/app.py` (`none` models the
`ValueError` raised for `ratio <= 0`).  The Python function joins these
factors into the ffmpeg filter string `"atempo=...,..."`; the factor list is
the semantic content of that string. -/
def atempo_chain (ratio : ℚ) : Option (List ℚ) :=
  if ratio ≤ 0 then none
  else
    let p1 := extractUp ratio
    let p2 := extractDown p1.2
    let fs := p1.1 ++ p2.1
    let factors := if |p2.2 - 1| > 1 / 1000000 then fs ++ [p2.2] else fs
    some (if factors = [] then [1] else factors)

/-- One pass of `re.sub("<class>+", "<rep>", s)`: collapse every maximal run
of characters satisfying `p` to the single character `rep`; `prev` records
whether the previous character belonged to a run. -/
def collapseRunsAux (p : Char → Bool) (rep : Char) : Bool → List Char → List Char
  | _, [] => []
  | prev, c :: cs =>
    if p c then (if prev then [] else [rep]) ++ collapseRunsAux p rep true cs
    else c :: collapseRunsAux p rep false cs

def collapseRuns (p : Char → Bool) (rep : Char) (s : List Char) : List Char :=
  collapseRunsAux p rep false s

/-- `re.sub(r"\d+", "", base)`: removing every maximal digit run is removing
every digit. -/
def removeDigits (s : List Char) : List Char := s.filter (fun c => !c.isDigit)

/-- `base.replace("_", " ").replace("-", " ")`. -/
def sepToSpace (s : List Char) : List Char :=
  s.map (fun c => if c = '_' || c = '-' then ' ' else c)

def STOPWORDS : List (List Char) := ["drum".toList, "loop".toList, "full".toList]

def isStopword (r : List Char) : Bool := STOPWORDS.any (fun w => toLowerStr r = w)

/-- `_SANITIZE_STOPWORDS.sub("", s)` for `(?i)\b(drum|loop|full)\b`: a
`\b`-bounded occurrence of a stopword is exactly a maximal word-character run
equal (case-insensitively) to it, so the substitution drops those runs; `cur`
is the word run currently being read. -/
def removeStopwordsAux (cur : List Char) : List Char → List Char
  | [] => if isStopword cur then [] else cur
  | c :: cs =>
    if isWordChar c then removeStopwordsAux (cur ++ [c]) cs
    else (if isStopword cur then [] else cur) ++ c :: removeStopwordsAux [] cs

def removeStopwords (s : List Char) : List Char := removeStopwordsAux [] s

/-- Python `str.strip()` on ASCII data. -/
def pyStrip (s : List Char) : List Char :=
  ((s.dropWhile pyIsSpace).reverse.dropWhile pyIsSpace).reverse

/-- `.replace(" ", "_")`. -/
def spaceToUnderscore (s : List Char) : List Char :=
  s.map (fun c => if c = ' ' then '_' else c)

/-- `re.sub(r"[^A-Za-z]+$", "", s)`. -/
def stripTrailingNonAlpha (s : List Char) : List Char :=
  (s.reverse.dropWhile (fun c => !c.isAlpha)).reverse

/-- Steps 1-6 of `_sanitize_base` (everything before the empty-name check). -/
def sanitizeCore (base : List Char) : List Char :=
  let s1 := removeDigits base
  let s2 := sepToSpace s1
  let s3 := removeStopwords s2
  let s4 := pyStrip (collapseRuns pyIsSpace ' ' s3)
  let s5 := spaceToUnderscore s4
  let s6 := collapseRuns (fun c => c = '_') '_' s5
  stripTrailingNonAlpha s6

/-- `_sanitize_base` of `src/app.py`. -/
def sanitize_base (base : List Char) : List Char :=
  if sanitizeCore base = [] then "converted".toList else sanitizeCore base

/-- The suffix normalization inside `safe_out_path`: strip, spaces to
underscores, collapse underscore runs, keep only `[A-Za-z0-9_\-]`. -/
def normalizeSuffixLabel (suffix : List Char) : List Char :=
  let s1 := pyStrip suffix
  let s2 := s1.map (fun c => if c = ' ' then '_' else c)
  let s3 := collapseRuns (fun c => c = '_') '_' s2
  s3.filter (fun c => c.isAlpha || c.isDigit || c = '_' || c = '-')

/-- Python `.rstrip("_-")`. -/
def pyRstripUH (s : List Char) : List Char :=
  (s.reverse.dropWhile (fun c => c = '_' || c = '-')).reverse

/-- `rel` of `safe_out_path`: the bare name when `flat_names`, else the posix
path with colons removed and slashes replaced by underscores. -/
def relName (srcPosix : List Char) (flat : Bool) : List Char :=
  if flat then pyName srcPosix
  else (srcPosix.filter (fun c => c ≠ ':')).map (fun c => if c = '/' then '_' else c)

/-- The sanitized stem (`clean`) computed by `safe_out_path` of `src/app.py`. -/
def safe_out_stem (srcPosix : List Char) (flat : Bool) (suffix : List Char) : List Char :=
  let clean := sanitize_base (pyStem (relName srcPosix flat))
  let clean2 :=
    if suffix ≠ [] then
      let suf := normalizeSuffixLabel suffix
      if suf ≠ [] then
        let cand := stripTrailingNonAlpha
          (collapseRuns (fun c => c = '_') '_' (clean ++ '_' :: suf))
        if cand = [] then clean else cand
      else clean
    else clean
  let clean3 := pyRstripUH clean2
  if clean3 = [] then "converted".toList else clean3

/-- The output file name `f"{clean}{ext}"` of `safe_out_path`. -/
def safe_out_name (srcPosix : List Char) (flat : Bool) (suffix : List Char) : List Char :=
  safe_out_stem srcPosix flat suffix ++ toLowerStr (pySuffix (pyName srcPosix))

/-- `safe_out_path` of `src/app.py` (`(out_dir / newname)`; `resolve()` is the
identity for an absolute output directory).  The `targetBpm` parameter is
accepted, and not used, exactly as in the source. -/
def safe_out_path (srcPosix outDir : List Char) (targetBpm : Nat) (flat : Bool)
    (suffix : List Char) : List Char :=
  outDir ++ '/' :: safe_out_name srcPosix flat suffix

/-- The messages `ConvertTask.run` emits, one constructor per message kind of
the source (the Python messages are formatted strings; their kind and file
name are the content the claims depend on). -/
inductive RunMsg
  | skipNoBpm (name : List Char)
  | skipExists (name : List Char)
  | convertStart (name : List Char) (bpm targetBpm : Nat)
  | saved (name : List Char)
  | convErrorNotFound (name : List Char)
  | convErrorProc (name : List Char)
  | excError (name : List Char)
  | excTraceback
deriving DecidableEq

def RunMsg.isConvErrorNotFound : RunMsg → Bool
  | .convErrorNotFound _ => true
  | _ => false

/-- Per-file oracle for the effects of one iteration of `ConvertTask.run`:
the file's name, whether the computed output path exists, whether the ffmpeg
subprocess would exit with code 0, and whether an unexpected exception is
raised inside the try block for this file. -/
structure FileEnv where
  name : List Char
  outExists : Bool
  procOk : Bool
  raises : Bool
deriving DecidableEq

/-- Outcome of `convert_with_ffmpeg` as `(ok, diagnostic is the FFmpeg-not-
found message)`: when `which_ffmpeg()` returns nothing the call fails with the
not-found text before running anything; otherwise success mirrors the
subprocess exit code. -/
def convert_with_ffmpeg (ffmpegFound procOk : Bool) : Bool × Bool :=
  if ffmpegFound = false then (false, true) else (procOk, false)

structure RunState where
  processed : Nat
  skipped : Nat
  messages : List RunMsg
  progressEvents : List Nat
deriving DecidableEq

/-- One iteration of the `for i, f in enumerate(self.files, start=1)` loop of
`ConvertTask.run`: the try/except body, then the progress emission
`int(i * 100 / max(total, 1))` (float division then `int(...)` truncation is
floor division at these magnitudes). -/
def stepFile (ffmpegFound : Bool) (targetBpm : Nat) (overwrite : Bool) (total : Nat)
    (st : RunState) (ie : Nat × FileEnv) : RunState :=
  let st1 :=
    if ie.2.raises then
      { st with skipped := st.skipped + 1,
                messages := st.messages ++ [RunMsg.excError ie.2.name, RunMsg.excTraceback] }
    else
      match guess_bpm_from_name ie.2.name with
      | none =>
        { st with skipped := st.skipped + 1,
                  messages := st.messages ++ [RunMsg.skipNoBpm ie.2.name] }
      | some bpm =>
        if bpm = 0 then
          { st with skipped := st.skipped + 1,
                    messages := st.messages ++ [RunMsg.skipNoBpm ie.2.name] }
        else if ie.2.outExists && !overwrite then
          { st with skipped := st.skipped + 1,
                    messages := st.messages ++ [RunMsg.skipExists ie.2.name] }
        else
          let conv := convert_with_ffmpeg ffmpegFound ie.2.procOk
          if conv.1 then
            { st with processed := st.processed + 1,
                      messages := st.messages ++
                        [RunMsg.convertStart ie.2.name bpm targetBpm, RunMsg.saved ie.2.name] }
          else
            { st with skipped := st.skipped + 1,
                      messages := st.messages ++
                        [RunMsg.convertStart ie.2.name bpm targetBpm,
                         if conv.2 then RunMsg.convErrorNotFound ie.2.name
                         else RunMsg.convErrorProc ie.2.name] }
  { st1 with progressEvents := st1.progressEvents ++ [ie.1 * 100 / max total 1] }

namespace ConvertTask

/-- `ConvertTask.run` of `src/app.py` over the per-file oracles: sequential
fold with 1-based enumeration; `ffmpegFound` models the result of
`which_ffmpeg()` (constant during one run). -/
def run (ffmpegFound : Bool) (targetBpm : Nat) (overwrite : Bool)
    (files : List FileEnv) : RunState :=
  (List.enumFrom 1 files).foldl (stepFile ffmpegFound targetBpm overwrite files.length)
    ⟨0, 0, [], []⟩

end ConvertTask

/-- A file reaches the `convert_with_ffmpeg` call: no exception, a non-zero
BPM was detected, and the exists-and-no-overwrite skip does not fire. -/
def reachesConversion (overwrite : Bool) (e : FileEnv) : Bool :=
  !e.raises &&
    (match guess_bpm_from_name e.name with
     | none => false
     | some bpm => bpm != 0 && !(e.outExists && !overwrite))

/-- The maximal word-character runs of a string, in order; `cur` is the run
being read (used to reason about the `\b`-bounded stopword substitution). -/
def wordRunsAux (cur : List Char) : List Char → List (List Char)
  | [] => if cur = [] then [] else [cur]
  | c :: cs =>
    if isWordChar c then wordRunsAux (cur ++ [c]) cs
    else (if cur = [] then [] else [cur]) ++ wordRunsAux [] cs

def wordRuns (s : List Char) : List (List Char) := wordRunsAux [] s

section AtempoLemmas

theorem extractUp_pos (r : ℚ) (h : 2 < r) :
    extractUp r = (2 :: (extractUp (r / 2)).1, (extractUp (r / 2)).2) := by
  rw [extractUp]
  simp [h]

theorem extractUp_neg (r : ℚ) (h : ¬ 2 < r) : extractUp r = ([], r) := by
  rw [extractUp]
  simp [h]

theorem extractUp_spec (r : ℚ) (hr : 0 < r) :
    (∀ f ∈ (extractUp r).1, f = 2) ∧ (extractUp r).1.prod * (extractUp r).2 = r ∧
      0 < (extractUp r).2 ∧ (extractUp r).2 ≤ 2 ∧ ((extractUp r).1 ≠ [] → 1 < (extractUp r).2) := by
  induction r using extractUp.induct with
  | case1 r h ih =>
    have hr2 : 0 < r / 2 := by positivity
    obtain ⟨i1, i2, i3, i4, i5⟩ := ih hr2
    rw [extractUp_pos r h]
    refine ⟨?_, ?_, i3, i4, fun _ => ?_⟩
    · intro f hf
      rcases hf with _ | hf
      · rfl
      · exact i1 f (by assumption)
    · simp only [List.prod_cons]
      rw [mul_assoc, i2]
      ring
    · show 1 < (extractUp (r / 2)).2
      by_cases hnil : (extractUp (r / 2)).1 = []
      · rw [hnil] at i2
        simp only [List.prod_nil, one_mul] at i2
        rw [i2]
        linarith
      · exact i5 hnil
  | case2 r h =>
    rw [extractUp_neg r h]
    refine ⟨by simp, by simp, hr, by linarith, by simp⟩

theorem extractDown_pos (r : ℚ) (h : 0 < r ∧ r < 1 / 2) :
    extractDown r = ((1 : ℚ) / 2 :: (extractDown (r / (1 / 2))).1, (extractDown (r / (1 / 2))).2) := by
  rw [extractDown, dif_pos h]

theorem extractDown_neg (r : ℚ) (h : ¬ (0 < r ∧ r < 1 / 2)) : extractDown r = ([], r) := by
  rw [extractDown]
  simp only [h, dite_false]

theorem extractDown_spec (r : ℚ) (hr : 0 < r) (hr2 : r ≤ 2) :
    (∀ f ∈ (extractDown r).1, f = 1 / 2) ∧ (extractDown r).1.prod * (extractDown r).2 = r ∧
      0 < (extractDown r).2 ∧ 1 / 2 ≤ (extractDown r).2 ∧ (extractDown r).2 ≤ 2 ∧
      ((extractDown r).1 ≠ [] → (extractDown r).2 < 1) := by
  induction r using extractDown.induct with
  | case1 r h ih =>
    have hr' : 0 < r / (1 / 2) := by
      obtain ⟨h0, _⟩ := h
      positivity
    have hr2' : r / (1 / 2) ≤ 2 := by
      obtain ⟨h0, hh⟩ := h
      rw [div_le_iff (by norm_num : (0:ℚ) < 1 / 2)]
      linarith
    obtain ⟨i1, i2, i3, i4, i5, i6⟩ := ih hr' hr2'
    rw [extractDown_pos r h]
    refine ⟨?_, ?_, i3, i4, i5, fun _ => ?_⟩
    · intro f hf
      rcases hf with _ | hf
      · rfl
      · exact i1 f (by assumption)
    · simp only [List.prod_cons]
      rw [mul_assoc, i2]
      obtain ⟨h0, _⟩ := h
      field_simp
    · show (extractDown (r / (1 / 2))).2 < 1
      by_cases hnil : (extractDown (r / (1 / 2))).1 = []
      · rw [hnil] at i2
        simp only [List.prod_nil, one_mul] at i2
        rw [i2]
        obtain ⟨h0, hh⟩ := h
        rw [div_lt_iff (by norm_num : (0:ℚ) < 1 / 2)]
        linarith
      · exact i6 hnil
  | case2 r h =>
    rw [extractDown_neg r h]
    have hge : 1 / 2 ≤ r := by
      by_contra hlt
      exact h ⟨hr, by linarith⟩
    exact ⟨by simp, by simp, hr, hge, hr2, by simp⟩


theorem atempo_chain_master (q : ℚ) (hq : 0 < q) :
    ∃ l : List ℚ, atempo_chain q = some l ∧ l ≠ [] ∧
      (∀ f ∈ l, 1 / 2 ≤ f ∧ f ≤ 2) ∧
      0 < l.prod ∧
      |q - l.prod| ≤ l.prod * (1 / 1000000) ∧
      (|q - 1| ≤ 1 / 1000000 → l = [1]) ∧
      (∃ a b rem, l = List.replicate a 2 ++ List.replicate b (1 / 2) ++ rem ∧
        rem.length ≤ 1 ∧ (a = 0 ∨ b = 0) ∧ (2 < q → b = 0) ∧ (q < 1 / 2 → a = 0)) ∧
      ¬ ((2 : ℚ) ∈ l ∧ ((1 : ℚ) / 2) ∈ l) := by
  have hne : ¬ q ≤ 0 := not_le.mpr hq
  obtain ⟨u1, u2, u3, u4, u5⟩ := extractUp_spec q hq
  obtain ⟨d1, d2, d3, d4, d5, d6⟩ := extractDown_spec (extractUp q).2 u3 u4
  set U := (extractUp q).1 with hU
  set ru := (extractUp q).2 with hru
  set D := (extractDown ru).1 with hD
  set rd := (extractDown ru).2 with hrd
  have hexcl : U ≠ [] → D = [] ∧ rd = ru := by
    intro hUne
    have h1 : 1 < ru := u5 hUne
    have heq : extractDown ru = ([], ru) :=
      extractDown_neg ru (by rintro ⟨_, hc2⟩; linarith)
    exact ⟨by rw [hD, heq], by rw [hrd, heq]⟩
  have hprodU : 0 < U.prod := List.prod_pos (fun f hf => by rw [u1 f hf]; norm_num)
  have hprodD : 0 < D.prod := List.prod_pos (fun f hf => by rw [d1 f hf]; norm_num)
  have hUrep : U = List.replicate U.length 2 := List.eq_replicate_iff.mpr ⟨rfl, u1⟩
  have hDrep : D = List.replicate D.length (1 / 2) := List.eq_replicate_iff.mpr ⟨rfl, d1⟩
  have hprod : (U ++ D).prod * rd = q := by
    rw [List.prod_append, mul_assoc, d2, u2]
  have hprodUD : 0 < (U ++ D).prod := by
    rw [List.prod_append]
    positivity
  have hnear : |q - 1| ≤ 1 / 1000000 → U = [] ∧ D = [] ∧ rd = q := by
    intro habs
    have hb := abs_le.mp habs
    have hq2 : ¬ 2 < q := by linarith [hb.2]
    have hequ : extractUp q = ([], q) := extractUp_neg q hq2
    have hru0 : ru = q := by rw [hru, hequ]
    have heqd : extractDown ru = ([], ru) :=
      extractDown_neg ru (by rw [hru0]; rintro ⟨_, hc⟩; have := hb.1; linarith)
    exact ⟨by rw [hU, hequ], by rw [hD, heqd], by rw [hrd, heqd, hru0]⟩
  have hsides : (2 < q → U ≠ [] ∧ D = []) ∧ (q < 1 / 2 → U = []) := by
    constructor
    · intro h2q
      have hux : extractUp q = (2 :: (extractUp (q / 2)).1, (extractUp (q / 2)).2) :=
        extractUp_pos q h2q
      have hUne : U ≠ [] := by rw [hU, hux]; simp
      exact ⟨hUne, (hexcl hUne).1⟩
    · intro hql
      have hux : extractUp q = ([], q) := extractUp_neg q (by linarith)
      rw [hU, hux]
  have hchain : atempo_chain q = some
      (if (if |rd - 1| > 1 / 1000000 then (U ++ D) ++ [rd] else U ++ D) = [] then [1]
       else (if |rd - 1| > 1 / 1000000 then (U ++ D) ++ [rd] else U ++ D)) := by
    rw [atempo_chain, if_neg hne]
  by_cases hrem : |rd - 1| > 1 / 1000000
  · -- remainder stage appended
    rw [if_pos hrem, if_neg (by simp)] at hchain
    refine ⟨(U ++ D) ++ [rd], hchain, by simp, ?_, ?_, ?_, ?_, ?_, ?_⟩
    · intro f hf
      rcases List.mem_append.mp hf with hf | hf
      · rcases List.mem_append.mp hf with hf | hf
        · rw [u1 f hf]; norm_num
        · rw [d1 f hf]; norm_num
      · rw [List.mem_singleton.mp hf]
        exact ⟨d4, d5⟩
    · rw [List.prod_append, List.prod_singleton, hprod]
      exact hq
    · rw [List.prod_append, List.prod_singleton, hprod]
      simp only [sub_self, abs_zero]
      positivity
    · intro habs
      obtain ⟨_, _, hrdq⟩ := hnear habs
      rw [hrdq] at hrem
      exact absurd habs (not_le.mpr hrem)
    · refine ⟨U.length, D.length, [rd], ?_, by simp, ?_, ?_, ?_⟩
      · rw [← hUrep, ← hDrep, List.append_assoc]
      · by_cases hUe : U = []
        · left; rw [hUe]; rfl
        · right; rw [(hexcl hUe).1]; rfl
      · intro h2q
        rw [(hsides.1 h2q).2]
        rfl
      · intro hql
        rw [hsides.2 hql]
        rfl
    · rintro ⟨h2m, hhm⟩
      by_cases hUe : U = []
      · rw [hUe] at h2m
        simp only [List.nil_append] at h2m
        rcases List.mem_append.mp h2m with h2m | h2m
        · have := d1 2 h2m
          norm_num at this
        · have h2rd : rd = 2 := (List.mem_singleton.mp h2m).symm
          by_cases hDe : D = []
          · rw [hUe, hDe] at hhm
            simp only [List.nil_append] at hhm
            have : (1 : ℚ) / 2 = rd := List.mem_singleton.mp hhm
            rw [h2rd] at this
            norm_num at this
          · have := d6 hDe
            rw [h2rd] at this
            norm_num at this
      · obtain ⟨hDe, hrdru⟩ := hexcl hUe
        have h1ru : 1 < ru := u5 hUe
        rw [hDe] at hhm
        simp only [List.append_nil] at hhm
        rcases List.mem_append.mp hhm with hhm | hhm
        · have := u1 (1 / 2) hhm
          norm_num at this
        · have : (1 : ℚ) / 2 = rd := List.mem_singleton.mp hhm
          rw [hrdru] at this
          linarith
  · -- remainder dropped
    rw [if_neg hrem] at hchain
    by_cases hfs : U ++ D = []
    · have hU0 : U = [] := by
        rcases List.append_eq_nil.mp hfs with ⟨h1, _⟩
        exact h1
      have hD0 : D = [] := by
        rcases List.append_eq_nil.mp hfs with ⟨_, h2⟩
        exact h2
      have hruq : ru = q := by
        have h := u2
        rw [hU0] at h
        simpa using h
      have hrdq : rd = q := by
        have h := d2
        rw [hD0] at h
        simp only [List.prod_nil, one_mul] at h
        rw [h, hruq]
      rw [if_pos hfs] at hchain
      have habs : |q - 1| ≤ 1 / 1000000 := by
        have h := not_lt.mp hrem
        rw [hrdq] at h
        exact h
      refine ⟨[1], hchain, by simp, ?_, by simp, ?_, fun _ => rfl, ?_, ?_⟩
      · intro f hf
        rw [List.mem_singleton.mp hf]
        norm_num
      · simp only [List.prod_singleton, mul_one]
        calc |q - 1| ≤ 1 / 1000000 := habs
        _ = 1 * (1 / 1000000) := by ring
      · exact ⟨0, 0, [1], by simp, by simp, Or.inl rfl, fun _ => rfl, fun _ => rfl⟩
      · rintro ⟨h2m, _⟩
        have : (2 : ℚ) = 1 := List.mem_singleton.mp h2m
        norm_num at this
    · rw [if_neg hfs] at hchain
      have hrem' : |rd - 1| ≤ 1 / 1000000 := not_lt.mp hrem
      refine ⟨U ++ D, hchain, hfs, ?_, hprodUD, ?_, ?_, ?_, ?_⟩
      · intro f hf
        rcases List.mem_append.mp hf with hf | hf
        · rw [u1 f hf]; norm_num
        · rw [d1 f hf]; norm_num
      · have : q - (U ++ D).prod = (U ++ D).prod * (rd - 1) := by
          rw [← hprod]; ring
        rw [this, abs_mul, abs_of_pos hprodUD]
        exact mul_le_mul_of_nonneg_left hrem' (le_of_lt hprodUD)
      · intro habs
        obtain ⟨hU0, hD0, _⟩ := hnear habs
        exact absurd (by rw [hU0, hD0]; rfl) hfs
      · refine ⟨U.length, D.length, [], ?_, by simp, ?_, ?_, ?_⟩
        · rw [← hUrep, ← hDrep, List.append_nil]
        · by_cases hUe : U = []
          · left; rw [hUe]; rfl
          · right; rw [(hexcl hUe).1]; rfl
        · intro h2q
          rw [(hsides.1 h2q).2]
          rfl
        · intro hql
          rw [hsides.2 hql]
          rfl
      · rintro ⟨h2m, hhm⟩
        by_cases hUe : U = []
        · rw [hUe] at h2m
          simp only [List.nil_append] at h2m
          have := d1 2 h2m
          norm_num at this
        · obtain ⟨hDe, _⟩ := hexcl hUe
          rw [hDe] at hhm
          simp only [List.append_nil] at hhm
          have := u1 (1 / 2) hhm
          norm_num at this

/-- C1: for sourceBpm > 0 and targetBpm > 0, the stage chain of
`atempo_chain (targetBpm / sourceBpm)` is non-empty, every stage lies in
[0.5, 2.0], the product reconstructs the ratio within a relative tolerance of
1e-6 (|ratio - product| ≤ product * 1e-6), and a ratio within 1e-6 of 1.0
yields exactly [1.0]. -/
theorem c1_theorem (s t : ℕ) (hs : 0 < s) (ht : 0 < t) :
    ∃ l : List ℚ, atempo_chain ((t : ℚ) / (s : ℚ)) = some l ∧ l ≠ [] ∧
      (∀ f ∈ l, 1 / 2 ≤ f ∧ f ≤ 2) ∧
      |(t : ℚ) / (s : ℚ) - l.prod| ≤ l.prod * (1 / 1000000) ∧
      (|(t : ℚ) / (s : ℚ) - 1| ≤ 1 / 1000000 → l = [1]) := by
  have hq : 0 < (t : ℚ) / (s : ℚ) := by
    apply div_pos
    · exact_mod_cast ht
    · exact_mod_cast hs
  obtain ⟨l, h1, h2, h3, _, h5, h6, _, _⟩ := atempo_chain_master _ hq
  exact ⟨l, h1, h2, h3, h5, h6⟩

/-- Witness for C1 at sourceBpm = 1, targetBpm = 2. -/
theorem c1_witness :
    ∃ l : List ℚ, atempo_chain (((2 : ℕ) : ℚ) / ((1 : ℕ) : ℚ)) = some l ∧ l ≠ [] ∧
      (∀ f ∈ l, 1 / 2 ≤ f ∧ f ≤ 2) ∧
      |((2 : ℕ) : ℚ) / ((1 : ℕ) : ℚ) - l.prod| ≤ l.prod * (1 / 1000000) ∧
      (|((2 : ℕ) : ℚ) / ((1 : ℕ) : ℚ) - 1| ≤ 1 / 1000000 → l = [1]) :=
  c1_theorem 1 2 (by norm_num) (by norm_num)

/-- Counterexample to C1 as stated: at sourceBpm = 312500, targetBpm = 1250001
the ratio is 4.0000032, the chain is [2.0, 2.0] (the remainder 1.0000008 is
within 1e-6 of 1.0 and is dropped), and the product 4 differs from the ratio
by 3.2e-6 > 1e-6. -/
theorem c1_counterexample :
    atempo_chain ((1250001 : ℚ) / 312500) = some [2, 2] ∧
    ¬ |(1250001 : ℚ) / 312500 - ([2, 2] : List ℚ).prod| ≤ 1 / 1000000 := by
  have e2 : extractUp ((1250001 : ℚ) / 1250000) = ([], (1250001 : ℚ) / 1250000) :=
    extractUp_neg _ (by norm_num)
  have e1 : extractUp ((1250001 : ℚ) / 625000) = ([2], (1250001 : ℚ) / 1250000) := by
    rw [extractUp_pos _ (by norm_num)]
    have harg : (1250001 : ℚ) / 625000 / 2 = 1250001 / 1250000 := by norm_num
    rw [harg, e2]
  have e0 : extractUp ((1250001 : ℚ) / 312500) = ([2, 2], (1250001 : ℚ) / 1250000) := by
    rw [extractUp_pos _ (by norm_num)]
    have harg : (1250001 : ℚ) / 312500 / 2 = 1250001 / 625000 := by norm_num
    rw [harg, e1]
  have ed : extractDown ((1250001 : ℚ) / 1250000) = ([], (1250001 : ℚ) / 1250000) :=
    extractDown_neg _ (by rintro ⟨_, hc⟩; norm_num at hc)
  constructor
  · rw [atempo_chain, if_neg (by norm_num)]
    simp only [e0, ed]
    norm_num
    have habs : ¬ (1 / 1000000 : ℚ) < |1 / 1250000| := by
      rw [abs_of_pos (by norm_num : (0 : ℚ) < 1 / 1250000)]
      norm_num
    rw [if_neg habs]
    simp
  · have hv : (1250001 : ℚ) / 312500 - ([2, 2] : List ℚ).prod = 1 / 312500 := by
      norm_num [List.prod_cons, List.prod_nil]
    rw [hv, abs_of_pos (by norm_num)]
    norm_num

/-- C9: for every ratio > 0, the chain decomposes as all-2.0 bounding stages
or all-0.5 bounding stages (never both) followed by at most one remainder
stage; in particular 2.0 and 0.5 never both occur in one chain. -/
theorem c9_theorem (q : ℚ) (hq : 0 < q) :
    ∃ l : List ℚ, atempo_chain q = some l ∧
      (∃ a b rem, l = List.replicate a 2 ++ List.replicate b (1 / 2) ++ rem ∧
        rem.length ≤ 1 ∧ (a = 0 ∨ b = 0) ∧ (2 < q → b = 0) ∧ (q < 1 / 2 → a = 0)) ∧
      ¬ ((2 : ℚ) ∈ l ∧ ((1 : ℚ) / 2) ∈ l) := by
  obtain ⟨l, h1, _, _, _, _, _, h7, h8⟩ := atempo_chain_master q hq
  exact ⟨l, h1, h7, h8⟩

/-- Witness for C9 at ratio = 5. -/
theorem c9_witness :
    ∃ l : List ℚ, atempo_chain (5 : ℚ) = some l ∧
      (∃ a b rem, l = List.replicate a 2 ++ List.replicate b (1 / 2) ++ rem ∧
        rem.length ≤ 1 ∧ (a = 0 ∨ b = 0) ∧ (2 < (5 : ℚ) → b = 0) ∧ ((5 : ℚ) < 1 / 2 → a = 0)) ∧
      ¬ ((2 : ℚ) ∈ l ∧ ((1 : ℚ) / 2) ∈ l) :=
  c9_theorem 5 (by norm_num)

end AtempoLemmas

section DetectLemmas

/-- C8: `safe_out_path` ignores the target BPM entirely, so any two target
tempos give the identical output path for the same source, directory, flag
and suffix (a collision). -/
theorem c8_theorem (srcPosix outDir : List Char) (bpm1 bpm2 : Nat) (flat : Bool)
    (suffix : List Char) :
    safe_out_path srcPosix outDir bpm1 flat suffix =
      safe_out_path srcPosix outDir bpm2 flat suffix := rfl

/-- C3 (amended): when the leftmost `RE_BPM_TAGGED` match in the base name has
a value in [40, 220], `guess_bpm_from_name` returns exactly that value,
regardless of any other numbers present. -/
theorem c3_theorem (name : List Char) (v : Nat)
    (h : RE_BPM_TAGGED_search (pyStem (pyName name)) = some v)
    (h1 : 40 ≤ v) (h2 : v ≤ 220) :
    guess_bpm_from_name name = some v := by
  have htag : guessTagged (pyStem (pyName name)) = some v := by
    rw [guessTagged, h]
    exact if_pos ⟨h1, h2⟩
  rw [guess_bpm_from_name]
  show (match guessTagged (pyStem (pyName name)) with
    | some b => some b
    | none =>
      if guessCandidates (pyStem (pyName name)) = [] then none
      else
        match (List.insertionSort (bpmSortLE (pyStem (pyName name)))
            (guessScored (pyStem (pyName name)))).getLast? with
        | some t => some t.2
        | none => none) = some v
  rw [htag]

/-- Witness for C3: `guess_bpm_from_name "intro_bpm128_mix.wav" = 128`. -/
theorem c3_witness : guess_bpm_from_name "intro_bpm128_mix.wav".toList = some 128 :=
  c3_theorem "intro_bpm128_mix.wav".toList 128 (by decide) (by decide) (by decide)

/-- Counterexample to C3 as stated: "bpm030_x_50_bpm120.wav" contains the
explicit tag bpm120 with in-range value 120, yet the function returns 50: the
leftmost tag bpm030 is out of range, so the code falls through to candidate
scoring, which picks 50. -/
theorem c3_counterexample :
    (120 ∈ taggedValuesAll (pyStem (pyName "bpm030_x_50_bpm120.wav".toList)) ∧
      40 ≤ 120 ∧ 120 ≤ 220) ∧
    guess_bpm_from_name "bpm030_x_50_bpm120.wav".toList = some 50 ∧ 50 ≠ 120 := by
  decide

theorem bpmSortLE_refl (base : List Char) (a : Int × Nat) : bpmSortLE base a a :=
  Or.inr ⟨rfl, le_refl _⟩

theorem bpmSortLE_total (base : List Char) : ∀ a b, bpmSortLE base a b ∨ bpmSortLE base b a := by
  intro a b
  rcases lt_trichotomy a.1 b.1 with h | h | h
  · exact Or.inl (Or.inl h)
  · rcases le_total (strRfind base (Nat.toDigits 10 a.2)) (strRfind base (Nat.toDigits 10 b.2)) with h2 | h2
    · exact Or.inl (Or.inr ⟨h, h2⟩)
    · exact Or.inr (Or.inr ⟨h.symm, h2⟩)
  · exact Or.inr (Or.inl h)

theorem bpmSortLE_trans (base : List Char) :
    ∀ a b c, bpmSortLE base a b → bpmSortLE base b c → bpmSortLE base a c := by
  rintro a b c (h1 | ⟨h1, h1'⟩) (h2 | ⟨h2, h2'⟩)
  · exact Or.inl (lt_trans h1 h2)
  · exact Or.inl (lt_of_lt_of_le h1 (le_of_eq h2))
  · exact Or.inl (lt_of_le_of_lt (le_of_eq h1) h2)
  · exact Or.inr ⟨h1.trans h2, le_trans h1' h2'⟩

instance (base : List Char) : IsTotal (Int × Nat) (bpmSortLE base) := ⟨bpmSortLE_total base⟩

instance (base : List Char) : IsTrans (Int × Nat) (bpmSortLE base) := ⟨bpmSortLE_trans base⟩

/-- In a list sorted by a reflexive relation, the last element is related to
every member. -/
theorem sorted_rel_getLast? {α : Type} {r : α → α → Prop} (hrefl : ∀ x, r x x) :
    ∀ (l : List α), l.Sorted r → ∀ x ∈ l, ∀ y, l.getLast? = some y → r x y := by
  intro l
  induction l with
  | nil =>
    intro _ x hx
    simp at hx
  | cons a t ih =>
    intro hs x hx y hy
    cases t with
    | nil =>
      simp only [List.mem_singleton] at hx
      simp only [List.getLast?_singleton, Option.some.injEq] at hy
      rw [hx, ← hy]
      exact hrefl a
    | cons b t2 =>
      have hy2 : (b :: t2).getLast? = some y := by
        rw [List.getLast?_cons_cons] at hy
        exact hy
      have hsc := List.sorted_cons.mp hs
      rcases List.mem_cons.mp hx with rfl | hx2
      · have hymem : y ∈ b :: t2 := List.mem_of_mem_getLast? hy2
        exact hsc.1 y hymem
      · exact ih hsc.2 x hx2 y hy2

/-- C2 (amended): with no in-range tagged value and a non-empty candidate
list, `guess_bpm_from_name` returns a candidate whose key
(score, last occurrence) is lexicographically maximal, where the base score
is 2 × (length of the base minus the index of the candidate's last
occurrence) — so candidates whose last occurrence is earlier score higher —
plus a uniform +50 keyword bonus, and score ties are broken in favour of the
later occurrence. -/
theorem c2_theorem (name : List Char)
    (htag : (RE_BPM_TAGGED_search (pyStem (pyName name))).all
      (fun b => !(40 ≤ b && b ≤ 220)) = true)
    (hne : guessCandidates (pyStem (pyName name)) ≠ []) :
    ∃ b, guess_bpm_from_name name = some b ∧
      b ∈ guessCandidates (pyStem (pyName name)) ∧
      ∀ c ∈ guessCandidates (pyStem (pyName name)),
        bpmSortLE (pyStem (pyName name))
          (bpmScore (pyStem (pyName name)) c, c)
          (bpmScore (pyStem (pyName name)) b, b) := by
  have htagged : guessTagged (pyStem (pyName name)) = none := by
    rw [guessTagged]
    cases hs : RE_BPM_TAGGED_search (pyStem (pyName name)) with
    | none => rfl
    | some b =>
      rw [hs] at htag
      simp only [Option.all_some, Bool.not_eq_eq_eq_not, Bool.not_true] at htag
      exact if_neg (by
        rintro ⟨ha, hb⟩
        simp [ha, hb] at htag)
  have hsorted : (List.insertionSort (bpmSortLE (pyStem (pyName name)))
      (guessScored (pyStem (pyName name)))).Sorted (bpmSortLE (pyStem (pyName name))) :=
    List.sorted_insertionSort _ _
  have hperm := List.perm_insertionSort (bpmSortLE (pyStem (pyName name)))
    (guessScored (pyStem (pyName name)))
  have hsne : List.insertionSort (bpmSortLE (pyStem (pyName name)))
      (guessScored (pyStem (pyName name))) ≠ [] := by
    intro hnil
    have h0 : guessScored (pyStem (pyName name)) = [] := by
      have hp := hperm
      rw [hnil] at hp
      exact hp.symm.eq_nil
    rw [guessScored, List.map_eq_nil] at h0
    exact hne h0
  cases hy : (List.insertionSort (bpmSortLE (pyStem (pyName name)))
      (guessScored (pyStem (pyName name)))).getLast? with
  | none => exact absurd (List.getLast?_eq_none_iff.mp hy) hsne
  | some y =>
    have hg : guess_bpm_from_name name = some y.2 := by
      rw [guess_bpm_from_name]
      show (match guessTagged (pyStem (pyName name)) with
        | some b => some b
        | none =>
          if guessCandidates (pyStem (pyName name)) = [] then none
          else
            match (List.insertionSort (bpmSortLE (pyStem (pyName name)))
                (guessScored (pyStem (pyName name)))).getLast? with
            | some t => some t.2
            | none => none) = some y.2
      rw [htagged, if_neg hne, hy]
    have hymem : y ∈ guessScored (pyStem (pyName name)) :=
      hperm.mem_iff.mp (List.mem_of_mem_getLast? hy)
    rw [guessScored] at hymem
    obtain ⟨c0, hc0, hyeq⟩ := List.mem_map.mp hymem
    refine ⟨y.2, hg, ?_, ?_⟩
    · rw [← hyeq]
      exact hc0
    · intro c hc
      have hkey : (bpmScore (pyStem (pyName name)) c, c) ∈
          List.insertionSort (bpmSortLE (pyStem (pyName name)))
            (guessScored (pyStem (pyName name))) := by
        apply hperm.mem_iff.mpr
        rw [guessScored]
        exact List.mem_map.mpr ⟨c, hc, rfl⟩
      have hr := sorted_rel_getLast? (bpmSortLE_refl (pyStem (pyName name)))
        _ hsorted _ hkey y hy
      have hy2 : (bpmScore (pyStem (pyName name)) y.2, y.2) = y := by
        rw [← hyeq]
      rw [hy2]
      exact hr

/-- Witness for C2 at "drum_100_90.wav" (two candidates, keyword present). -/
theorem c2_witness :
    ∃ b, guess_bpm_from_name "drum_100_90.wav".toList = some b ∧
      b ∈ guessCandidates (pyStem (pyName "drum_100_90.wav".toList)) ∧
      ∀ c ∈ guessCandidates (pyStem (pyName "drum_100_90.wav".toList)),
        bpmSortLE (pyStem (pyName "drum_100_90.wav".toList))
          (bpmScore (pyStem (pyName "drum_100_90.wav".toList)) c, c)
          (bpmScore (pyStem (pyName "drum_100_90.wav".toList)) b, b) :=
  c2_theorem "drum_100_90.wav".toList (by decide) (by decide)

/-- Counterexample to C2 as stated: "100_90.wav" has no tagged value and the
two distinct in-range candidates 100 and 90; under the claim's scoring
(2 × distance from the start to the last occurrence, later occurrences
higher) 90 beats 100, yet the code returns 100 — the code scores
2 × (length - index), preferring the earlier last occurrence. -/
theorem c2_counterexample :
    RE_BPM_TAGGED_search (pyStem (pyName "100_90.wav".toList)) = none ∧
    guessCandidates (pyStem (pyName "100_90.wav".toList)) = [100, 90] ∧
    claimC2Score (pyStem (pyName "100_90.wav".toList)) 100 <
      claimC2Score (pyStem (pyName "100_90.wav".toList)) 90 ∧
    guess_bpm_from_name "100_90.wav".toList = some 100 := by decide

end DetectLemmas

section RunLemmas

theorem stepFile_spec (ff : Bool) (t : Nat) (ow : Bool) (total : Nat) (st : RunState)
    (i : Nat) (e : FileEnv) :
    ∃ (p s : Nat) (ms : List RunMsg),
      stepFile ff t ow total st (i, e) =
        { processed := st.processed + p, skipped := st.skipped + s,
          messages := st.messages ++ ms,
          progressEvents := st.progressEvents ++ [i * 100 / max total 1] } ∧
      p + s = 1 ∧ (ff = false → p = 0) ∧
      ms.countP RunMsg.isConvErrorNotFound =
        (if ff = false ∧ reachesConversion ow e = true then 1 else 0) := by
  by_cases hr : e.raises
  · refine ⟨0, 1, [RunMsg.excError e.name, RunMsg.excTraceback], ?_, rfl, fun _ => rfl, ?_⟩
    · simp [stepFile, hr]
    · simp [reachesConversion, hr, RunMsg.isConvErrorNotFound]
  · cases hg : guess_bpm_from_name e.name with
    | none =>
      refine ⟨0, 1, [RunMsg.skipNoBpm e.name], ?_, rfl, fun _ => rfl, ?_⟩
      · simp [stepFile, hr, hg]
      · simp [reachesConversion, hr, hg, RunMsg.isConvErrorNotFound]
    | some bpm =>
      by_cases hb : bpm = 0
      · refine ⟨0, 1, [RunMsg.skipNoBpm e.name], ?_, rfl, fun _ => rfl, ?_⟩
        · simp [stepFile, hr, hg, hb]
        · simp [reachesConversion, hr, hg, hb, RunMsg.isConvErrorNotFound]
      · by_cases he : e.outExists && !ow
        · refine ⟨0, 1, [RunMsg.skipExists e.name], ?_, rfl, fun _ => rfl, ?_⟩
          · simp [stepFile, hr, hg, hb, he]
          · simp [reachesConversion, hr, hg, hb, he, RunMsg.isConvErrorNotFound]
        · by_cases hff : ff = false
          · refine ⟨0, 1, [RunMsg.convertStart e.name bpm t, RunMsg.convErrorNotFound e.name],
              ?_, rfl, fun _ => rfl, ?_⟩
            · simp [stepFile, hr, hg, hb, he, hff, convert_with_ffmpeg]
            · simp [reachesConversion, hr, hg, hb, he, hff, RunMsg.isConvErrorNotFound]
          · by_cases hp : e.procOk
            · refine ⟨1, 0, [RunMsg.convertStart e.name bpm t, RunMsg.saved e.name],
                ?_, rfl, fun hc => absurd hc hff, ?_⟩
              · simp [stepFile, hr, hg, hb, he, hff, hp, convert_with_ffmpeg]
              · simp [hff, RunMsg.isConvErrorNotFound]
            · refine ⟨0, 1, [RunMsg.convertStart e.name bpm t, RunMsg.convErrorProc e.name],
                ?_, rfl, fun _ => rfl, ?_⟩
              · simp [stepFile, hr, hg, hb, he, hff, hp, convert_with_ffmpeg]
              · simp [hff, RunMsg.isConvErrorNotFound]

theorem run_foldl_spec (ff : Bool) (t : Nat) (ow : Bool) (total : Nat) :
    ∀ (l : List (Nat × FileEnv)) (st : RunState),
      (l.foldl (stepFile ff t ow total) st).processed +
          (l.foldl (stepFile ff t ow total) st).skipped
        = st.processed + st.skipped + l.length ∧
      (l.foldl (stepFile ff t ow total) st).progressEvents
        = st.progressEvents ++ l.map (fun ie => ie.1 * 100 / max total 1) ∧
      (ff = false → (l.foldl (stepFile ff t ow total) st).processed = st.processed) ∧
      (ff = false →
        (l.foldl (stepFile ff t ow total) st).messages.countP RunMsg.isConvErrorNotFound
          = st.messages.countP RunMsg.isConvErrorNotFound +
            l.countP (fun ie => reachesConversion ow ie.2)) := by
  intro l
  induction l with
  | nil =>
    intro st
    simp
  | cons ie rest ih =>
    intro st
    obtain ⟨p, s, ms, heq, hps, hp0, hcnt⟩ := stepFile_spec ff t ow total st ie.1 ie.2
    rw [List.foldl_cons]
    have hie : stepFile ff t ow total st ie =
        { processed := st.processed + p, skipped := st.skipped + s,
          messages := st.messages ++ ms,
          progressEvents := st.progressEvents ++ [ie.1 * 100 / max total 1] } := by
      rw [← heq]
    rw [hie]
    obtain ⟨ih1, ih2, ih3, ih4⟩ := ih _
    refine ⟨?_, ?_, ?_, ?_⟩
    · rw [ih1]
      simp only [List.length_cons]
      omega
    · rw [ih2]
      simp [List.append_assoc]
    · intro hff
      rw [ih3 hff]
      simp [hp0 hff]
    · intro hff
      rw [ih4 hff]
      simp only [List.countP_append, List.countP_cons]
      rw [hcnt]
      simp only [hff, true_and]
      by_cases hrc : reachesConversion ow ie.2 = true
      · simp [hrc] <;> omega
      · simp [hrc] <;> omega

/-- C4: the batch loop is total over its per-file oracles (every per-file
failure is a caught branch of the model) and each file adds exactly one to
processed or skipped: on completion processed + skipped equals the number of
input files. -/
theorem c4_theorem (ff : Bool) (t : Nat) (ow : Bool) (files : List FileEnv) :
    (ConvertTask.run ff t ow files).processed + (ConvertTask.run ff t ow files).skipped
      = files.length := by
  have h := (run_foldl_spec ff t ow files.length (List.enumFrom 1 files) ⟨0, 0, [], []⟩).1
  rw [ConvertTask.run, h]
  simp [List.enumFrom_length]

theorem countP_enumFrom (p : FileEnv → Bool) :
    ∀ (n : Nat) (files : List FileEnv),
      (List.enumFrom n files).countP (fun ie => p ie.2) = files.countP p := by
  intro n files
  have h1 : files.countP p = (List.map Prod.snd (List.enumFrom n files)).countP p := by
    rw [List.enumFrom_map_snd]
  rw [h1, List.countP_map]
  rfl

/-- C5 (amended): with no discoverable converter binary the run still
iterates every file (one progress event per file), processes zero files, and
each file that reaches the conversion step is skipped with its own
converter-not-found error message — there is no early abort and no single
fatal message. -/
theorem c5_theorem (t : Nat) (ow : Bool) (files : List FileEnv) :
    (ConvertTask.run false t ow files).processed = 0 ∧
    (ConvertTask.run false t ow files).progressEvents.length = files.length ∧
    (ConvertTask.run false t ow files).messages.countP RunMsg.isConvErrorNotFound
      = files.countP (reachesConversion ow) := by
  obtain ⟨_, h2, h3, h4⟩ :=
    run_foldl_spec false t ow files.length (List.enumFrom 1 files) ⟨0, 0, [], []⟩
  rw [ConvertTask.run]
  refine ⟨h3 rfl, ?_, ?_⟩
  · rw [h2]
    simp [List.enumFrom_length]
  · rw [h4 rfl]
    simp [countP_enumFrom]

/-- Counterexample to C5 as stated: with no converter binary and two files
that both reach conversion, the run emits two converter-not-found error
messages (not a single fatal one) and two progress events (it does not abort
before any file is processed). -/
theorem c5_counterexample :
    (ConvertTask.run false 100 false
      [⟨"a_120.wav".toList, false, true, false⟩,
       ⟨"b_120.wav".toList, false, true, false⟩]).messages.countP
        RunMsg.isConvErrorNotFound = 2 ∧
    (ConvertTask.run false 100 false
      [⟨"a_120.wav".toList, false, true, false⟩,
       ⟨"b_120.wav".toList, false, true, false⟩]).progressEvents = [50, 100] ∧
    (ConvertTask.run false 100 false
      [⟨"a_120.wav".toList, false, true, false⟩,
       ⟨"b_120.wav".toList, false, true, false⟩]).processed = 0 := by decide

theorem run_progress_eq (ff : Bool) (t : Nat) (ow : Bool) (files : List FileEnv) :
    (ConvertTask.run ff t ow files).progressEvents
      = (List.range' 1 files.length).map (fun i => i * 100 / max files.length 1) := by
  have h := (run_foldl_spec ff t ow files.length (List.enumFrom 1 files) ⟨0, 0, [], []⟩).2.1
  rw [ConvertTask.run, h]
  have hcomp : (fun ie : Nat × FileEnv => ie.1 * 100 / max files.length 1)
      = (fun i => i * 100 / max files.length 1) ∘ Prod.fst := rfl
  rw [hcomp, ← List.map_map, List.enumFrom_map_fst]
  rfl

/-- C10: over a non-empty file list the run emits exactly one progress value
per file, the values are non-decreasing, and the final value is 100. -/
theorem c10_theorem (ff : Bool) (t : Nat) (ow : Bool) (files : List FileEnv)
    (h : files ≠ []) :
    (ConvertTask.run ff t ow files).progressEvents.length = files.length ∧
    (ConvertTask.run ff t ow files).progressEvents.Pairwise (· ≤ ·) ∧
    (ConvertTask.run ff t ow files).progressEvents.getLast? = some 100 := by
  rw [run_progress_eq]
  obtain ⟨n, hn⟩ : ∃ n, files.length = n + 1 := by
    cases files with
    | nil => exact absurd rfl h
    | cons a l => exact ⟨l.length, rfl⟩
  rw [hn]
  refine ⟨by simp, ?_, ?_⟩
  · apply List.Pairwise.map
    · intro a b hab
      exact Nat.div_le_div_right (Nat.mul_le_mul_right 100 (le_of_lt hab))
    · exact List.pairwise_lt_range' 1 (n + 1)
  · rw [List.getLast?_map, List.range'_concat]
    rw [List.getLast?_concat]
    have hmax : max (n + 1) 1 = n + 1 := by omega
    have harith : (1 + n) * 100 / (n + 1) = 100 := by
      rw [Nat.add_comm 1 n]
      exact Nat.mul_div_cancel_left 100 (Nat.succ_pos n)
    simp [hmax, harith]



/-- Witness for C10 with a single-file run. -/
theorem c10_witness :
    (ConvertTask.run true 100 false
        [⟨"x_120.wav".toList, false, true, false⟩]).progressEvents.length
      = ([⟨"x_120.wav".toList, false, true, false⟩] : List FileEnv).length ∧
    (ConvertTask.run true 100 false
        [⟨"x_120.wav".toList, false, true, false⟩]).progressEvents.Pairwise (· ≤ ·) ∧
    (ConvertTask.run true 100 false
        [⟨"x_120.wav".toList, false, true, false⟩]).progressEvents.getLast? = some 100 :=
  c10_theorem true 100 false [⟨"x_120.wav".toList, false, true, false⟩] (by simp)

end RunLemmas

section CharFacts

theorem char_toNat_ofNat_valid (n : Nat) (h : n.isValidChar) : (Char.ofNat n).toNat = n := by
  rw [Char.ofNat, dif_pos h, Char.ofNatAux, Char.toNat]
  simp [UInt32.toNat]

theorem toLower_eq_self (d : Char) (hd : ¬(d.toNat ≥ 65 ∧ d.toNat ≤ 90)) :
    d.toLower = d := by
  rw [Char.toLower, if_neg hd]

theorem toLower_toLower (c : Char) : c.toLower.toLower = c.toLower := by
  by_cases hc : c.toNat ≥ 65 ∧ c.toNat ≤ 90
  · apply toLower_eq_self
    have hv : (c.toNat + 32).isValidChar := Or.inl (by rcases hc with ⟨_, h2⟩; omega)
    have hn : (Char.toLower c).toNat = c.toNat + 32 := by
      rw [Char.toLower, if_pos hc]
      exact char_toNat_ofNat_valid _ hv
    rw [hn]
    omega
  · rw [toLower_eq_self c hc, toLower_eq_self c hc]

theorem toLower_ne_of_ne (c t : Char) (ht : t.toNat < 97 ∨ 122 < t.toNat) (h : c ≠ t) :
    c.toLower ≠ t := by
  by_cases hc : c.toNat ≥ 65 ∧ c.toNat ≤ 90
  · have hv : (c.toNat + 32).isValidChar := Or.inl (by rcases hc with ⟨_, h2⟩; omega)
    have hn : (Char.toLower c).toNat = c.toNat + 32 := by
      rw [Char.toLower, if_pos hc]
      exact char_toNat_ofNat_valid _ hv
    intro heq
    rw [heq] at hn
    rcases hc with ⟨h1, h2⟩
    omega
  · rw [toLower_eq_self c hc]
    exact h

theorem pyIsSpace_iff (c : Char) : pyIsSpace c = true ↔
    c = ' ' ∨ c = '\t' ∨ c = '\n' ∨ c = '\r' ∨ c = '\x0b' ∨ c = '\x0c' := by
  simp [pyIsSpace, or_assoc]

theorem space_not_word (c : Char) (h : pyIsSpace c = true) : isWordChar c = false := by
  rcases (pyIsSpace_iff c).mp h with rfl | rfl | rfl | rfl | rfl | rfl <;> rfl

theorem alpha_not_space (c : Char) (h : c.isAlpha = true) : pyIsSpace c = false := by
  cases hs : pyIsSpace c
  · rfl
  · rcases (pyIsSpace_iff c).mp hs with rfl | rfl | rfl | rfl | rfl | rfl <;>
      exact absurd h (by decide)

theorem alpha_word (c : Char) (h : c.isAlpha = true) : isWordChar c = true := by
  simp [isWordChar, h]

theorem alpha_not_uh (c : Char) (h : c.isAlpha = true) : (c = '_' || c = '-') = false := by
  rcases h2 : (c = '_' || c = '-') with _ | _
  · rfl
  · simp at h2
    rcases h2 with rfl | rfl <;> exact absurd h (by decide)

end CharFacts

section ListHelpers

theorem head?_dropWhile {α : Type} (p : α → Bool) (l : List α) :
    ∀ a, (l.dropWhile p).head? = some a → p a = false := by
  induction l with
  | nil =>
    intro a h
    simp at h
  | cons c cs ih =>
    intro a h
    rw [List.dropWhile_cons] at h
    by_cases hc : p c
    · rw [if_pos hc] at h
      exact ih a h
    · rw [if_neg hc] at h
      simp only [List.head?_cons, Option.some.injEq] at h
      subst h
      cases hpc : p c
      · rfl
      · exact absurd hpc hc

theorem dropWhile_eq_self_of {α : Type} {p : α → Bool} {l : List α}
    (h : ∀ a, l.head? = some a → p a = false) : l.dropWhile p = l := by
  cases l with
  | nil => rfl
  | cons a u =>
    rw [List.dropWhile_cons, if_neg]
    rw [h a rfl]
    simp

theorem prefixOf_head? {α : Type} {l l' : List α} (h : l' <+: l) (hne : l' ≠ []) :
    l.head? = l'.head? := by
  obtain ⟨t, rfl⟩ := h
  cases l' with
  | nil => exact absurd rfl hne
  | cons a u => rfl

theorem map_eq_self_of {α : Type} {f : α → α} {l : List α} (h : ∀ c ∈ l, f c = c) :
    l.map f = l := by
  induction l with
  | nil => rfl
  | cons a u ih =>
    rw [List.map_cons, h a (by simp), ih (fun c hc => h c (by simp [hc]))]

end ListHelpers

section SanitizeStructure

theorem stripTrailingNonAlpha_prefixOf (s : List Char) : stripTrailingNonAlpha s <+: s := by
  rw [stripTrailingNonAlpha]
  have h := List.dropWhile_suffix (l := s.reverse) (p := fun c => !c.isAlpha)
  obtain ⟨t, ht⟩ := h
  refine ⟨t.reverse, ?_⟩
  have := congrArg List.reverse ht
  rw [List.reverse_append] at this
  rw [this, List.reverse_reverse]

theorem stripTrailingNonAlpha_decomp (s : List Char) :
    ∃ v, s = stripTrailingNonAlpha s ++ v ∧ ∀ c ∈ v, c.isAlpha = false := by
  refine ⟨(s.reverse.takeWhile (fun c => !c.isAlpha)).reverse, ?_, ?_⟩
  · have h := List.takeWhile_append_dropWhile (p := fun c => !c.isAlpha) (l := s.reverse)
    have h2 := congrArg List.reverse h
    rw [List.reverse_append, List.reverse_reverse] at h2
    rw [stripTrailingNonAlpha]
    conv_lhs => rw [← h2]
  · intro c hc
    rw [List.mem_reverse] at hc
    have := List.mem_takeWhile_imp hc
    simpa using this

theorem stripTrailingNonAlpha_last (s : List Char) :
    ∀ c, (stripTrailingNonAlpha s).getLast? = some c → c.isAlpha = true := by
  intro c hc
  rw [stripTrailingNonAlpha, List.getLast?_reverse] at hc
  have := head?_dropWhile _ _ _ hc
  simpa using this

theorem stripTrailingNonAlpha_eq_self (s : List Char)
    (h : ∀ c, s.getLast? = some c → c.isAlpha = true) : stripTrailingNonAlpha s = s := by
  rw [stripTrailingNonAlpha, dropWhile_eq_self_of, List.reverse_reverse]
  intro a ha
  rw [List.head?_reverse] at ha
  simp [h a ha]

theorem pyRstripUH_eq_self (s : List Char)
    (h : ∀ c, s.getLast? = some c → c.isAlpha = true) : pyRstripUH s = s := by
  rw [pyRstripUH, dropWhile_eq_self_of, List.reverse_reverse]
  intro a ha
  rw [List.head?_reverse] at ha
  exact alpha_not_uh a (h a ha)

theorem pyStrip_decomp (s : List Char) :
    ∃ v w, s = v ++ pyStrip s ++ w ∧ (∀ c ∈ v, pyIsSpace c = true) ∧
      (∀ c ∈ w, pyIsSpace c = true) := by
  refine ⟨s.takeWhile pyIsSpace, ((s.dropWhile pyIsSpace).reverse.takeWhile pyIsSpace).reverse,
    ?_, ?_, ?_⟩
  · have h1 := List.takeWhile_append_dropWhile (p := pyIsSpace) (l := s)
    have h2 := List.takeWhile_append_dropWhile (p := pyIsSpace) (l := (s.dropWhile pyIsSpace).reverse)
    have h3 := congrArg List.reverse h2
    rw [List.reverse_append, List.reverse_reverse] at h3
    rw [pyStrip]
    conv_lhs => rw [← h1]
    conv_lhs => rw [← h3]
    exact (List.append_assoc _ _ _).symm
  · intro c hc
    exact List.mem_takeWhile_imp hc
  · intro c hc
    rw [List.mem_reverse] at hc
    exact List.mem_takeWhile_imp hc

theorem pyStrip_mem (s : List Char) (c : Char) (h : c ∈ pyStrip s) : c ∈ s := by
  obtain ⟨v, w, heq, _, _⟩ := pyStrip_decomp s
  rw [heq]
  simp [h]

theorem pyStrip_head? (s : List Char) :
    ∀ c, (pyStrip s).head? = some c → pyIsSpace c = false := by
  intro c hc
  rw [pyStrip] at hc
  have hpre : ((s.dropWhile pyIsSpace).reverse.dropWhile pyIsSpace).reverse <+:
      s.dropWhile pyIsSpace := by
    obtain ⟨t, ht⟩ := List.dropWhile_suffix (l := (s.dropWhile pyIsSpace).reverse) (p := pyIsSpace)
    refine ⟨t.reverse, ?_⟩
    have h2 := congrArg List.reverse ht
    rw [List.reverse_append, List.reverse_reverse] at h2
    rw [h2]
  have hne : ((s.dropWhile pyIsSpace).reverse.dropWhile pyIsSpace).reverse ≠ [] := by
    intro h0
    rw [h0] at hc
    simp at hc
  have := prefixOf_head? hpre hne
  rw [hc] at this
  exact head?_dropWhile _ _ _ this

theorem pyStrip_last? (s : List Char) :
    ∀ c, (pyStrip s).getLast? = some c → pyIsSpace c = false := by
  intro c hc
  rw [pyStrip, List.getLast?_reverse] at hc
  exact head?_dropWhile _ _ _ hc

theorem pyStrip_eq_self (s : List Char)
    (h1 : ∀ c, s.head? = some c → pyIsSpace c = false)
    (h2 : ∀ c, s.getLast? = some c → pyIsSpace c = false) : pyStrip s = s := by
  rw [pyStrip]
  rw [dropWhile_eq_self_of (l := s) h1]
  rw [dropWhile_eq_self_of, List.reverse_reverse]
  intro a ha
  rw [List.head?_reverse] at ha
  exact h2 a ha

end SanitizeStructure

section CollapseLemmas

theorem collapseRunsAux_mem (p : Char → Bool) (rep : Char) :
    ∀ (x : List Char) (prev : Bool) (c : Char),
      c ∈ collapseRunsAux p rep prev x → c = rep ∨ c ∈ x := by
  intro x
  induction x with
  | nil =>
    intro prev c h
    simp [collapseRunsAux] at h
  | cons a cs ih =>
    intro prev c h
    rw [collapseRunsAux] at h
    by_cases ha : p a
    · rw [if_pos ha] at h
      rcases List.mem_append.mp h with h | h
      · by_cases hp : prev
        · rw [if_pos hp] at h
          simp at h
        · rw [if_neg hp] at h
          simp at h
          exact Or.inl h
      · rcases ih true c h with h | h
        · exact Or.inl h
        · exact Or.inr (by simp [h])
    · rw [if_neg ha] at h
      rcases List.mem_cons.mp h with h | h
      · exact Or.inr (by simp [h])
      · rcases ih false c h with h | h
        · exact Or.inl h
        · exact Or.inr (by simp [h])

theorem collapseRunsAux_p_eq_rep (p : Char → Bool) (rep : Char) :
    ∀ (x : List Char) (prev : Bool) (c : Char),
      c ∈ collapseRunsAux p rep prev x → p c = true → c = rep := by
  intro x
  induction x with
  | nil =>
    intro prev c h
    simp [collapseRunsAux] at h
  | cons a cs ih =>
    intro prev c h hp
    rw [collapseRunsAux] at h
    by_cases ha : p a
    · rw [if_pos ha] at h
      rcases List.mem_append.mp h with h | h
      · by_cases hprev : prev
        · rw [if_pos hprev] at h
          simp at h
        · rw [if_neg hprev] at h
          simp at h
          exact h
      · exact ih true c h hp
    · rw [if_neg ha] at h
      rcases List.mem_cons.mp h with h | h
      · rw [h] at hp
        exact absurd hp (by simp [ha])
      · exact ih false c h hp

theorem collapseRunsAux_chain (p : Char → Bool) (rep : Char) :
    ∀ (x : List Char) (prev : Bool),
      List.Chain' (fun a b => ¬(p a = true ∧ p b = true)) (collapseRunsAux p rep prev x) ∧
      (prev = true → ∀ c, (collapseRunsAux p rep prev x).head? = some c → p c = false) := by
  intro x
  induction x with
  | nil =>
    intro prev
    constructor
    · simp [collapseRunsAux]
    · intro _ c hc
      simp [collapseRunsAux] at hc
  | cons a cs ih =>
    intro prev
    by_cases ha : p a
    · by_cases hprev : prev
      · constructor
        · have h0 : collapseRunsAux p rep prev (a :: cs) = collapseRunsAux p rep true cs := by
            rw [collapseRunsAux, if_pos ha, if_pos hprev]
            rfl
          rw [h0]
          exact (ih true).1
        · intro _ c hc
          have h0 : collapseRunsAux p rep prev (a :: cs) = collapseRunsAux p rep true cs := by
            rw [collapseRunsAux, if_pos ha, if_pos hprev]
            rfl
          rw [h0] at hc
          exact (ih true).2 rfl c hc
      · have h0 : collapseRunsAux p rep prev (a :: cs) = rep :: collapseRunsAux p rep true cs := by
          rw [collapseRunsAux, if_pos ha, if_neg hprev]
          rfl
        constructor
        · rw [h0, List.chain'_cons']
          refine ⟨?_, (ih true).1⟩
          intro y hy
          intro hcon
          have := (ih true).2 rfl y hy
          rw [this] at hcon
          exact Bool.false_ne_true hcon.2
        · intro hzz
          exact absurd hzz hprev
    · have h0 : collapseRunsAux p rep prev (a :: cs) = a :: collapseRunsAux p rep false cs := by
        rw [collapseRunsAux, if_neg ha]
      constructor
      · rw [h0, List.chain'_cons']
        refine ⟨?_, (ih false).1⟩
        intro y hy hcon
        exact absurd hcon.1 (by simpa using ha)
      · intro _ c hc
        rw [h0] at hc
        simp only [List.head?_cons, Option.some.injEq] at hc
        subst hc
        simpa using ha

theorem collapseRunsAux_eq_self (p : Char → Bool) (rep : Char) :
    ∀ (x : List Char) (prev : Bool),
      List.Chain' (fun a b => ¬(p a = true ∧ p b = true)) x →
      (∀ c ∈ x, p c = true → c = rep) →
      (prev = true → ∀ c, x.head? = some c → p c = false) →
      collapseRunsAux p rep prev x = x := by
  intro x
  induction x with
  | nil =>
    intro prev _ _ _
    rfl
  | cons a cs ih =>
    intro prev hchain hrep hhead
    by_cases ha : p a
    · have hprev : prev = false := by
        cases prev
        · rfl
        · have hfalse := hhead rfl a rfl
          rw [ha] at hfalse
          exact absurd hfalse (by simp)
      have harep : a = rep := hrep a (by simp) ha
      have hhd : ∀ d, cs.head? = some d → p d = false := by
        intro d hd
        have h2 := (List.chain'_cons'.mp hchain).1 d (by rw [hd]; rfl)
        cases hpd : p d
        · rfl
        · exact absurd ⟨ha, hpd⟩ h2
      have hcs : collapseRunsAux p rep true cs = cs :=
        ih true (List.chain'_cons'.mp hchain).2 (fun c hc => hrep c (by simp [hc]))
          (fun _ => hhd)
      rw [collapseRunsAux, if_pos ha, hprev]
      simp only [Bool.false_eq_true, if_false]
      rw [hcs, harep]
      rfl
    · rw [collapseRunsAux, if_neg ha]
      rw [ih false (List.chain'_cons'.mp hchain).2
        (fun c hc => hrep c (by simp [hc])) (fun h => by simp at h)]

end CollapseLemmas

section WordRunsLemmas

theorem emit_nil : (if ([] : List Char) = [] then ([] : List (List Char)) else [[]]) = [] :=
  if_pos rfl

theorem removeStopwordsAux_mem :
    ∀ (x cur : List Char) (c : Char), c ∈ removeStopwordsAux cur x → c ∈ cur ∨ c ∈ x := by
  intro x
  induction x with
  | nil =>
    intro cur c h
    rw [removeStopwordsAux] at h
    by_cases hs : isStopword cur
    · rw [if_pos hs] at h
      simp at h
    · rw [if_neg hs] at h
      exact Or.inl h
  | cons a cs ih =>
    intro cur c h
    rw [removeStopwordsAux] at h
    by_cases ha : isWordChar a
    · rw [if_pos ha] at h
      rcases ih (cur ++ [a]) c h with h2 | h2
      · rcases List.mem_append.mp h2 with h3 | h3
        · exact Or.inl h3
        · simp at h3
          exact Or.inr (by simp [h3])
      · exact Or.inr (by simp [h2])
    · rw [if_neg ha] at h
      rcases List.mem_append.mp h with h2 | h2
      · by_cases hs : isStopword cur
        · rw [if_pos hs] at h2
          simp at h2
        · rw [if_neg hs] at h2
          exact Or.inl h2
      · rcases List.mem_cons.mp h2 with h3 | h3
        · exact Or.inr (by simp [h3])
        · rcases ih [] c h3 with h4 | h4
          · simp at h4
          · exact Or.inr (by simp [h4])

theorem isStopword_nil : isStopword [] = false := by decide

theorem wordRunsAux_allword :
    ∀ (w cur : List Char), (∀ c ∈ w, isWordChar c = true) →
      wordRunsAux cur w = if cur ++ w = [] then [] else [cur ++ w] := by
  intro w
  induction w with
  | nil =>
    intro cur _
    rw [wordRunsAux, List.append_nil]
  | cons a v ih =>
    intro cur hall
    rw [wordRunsAux, if_pos (hall a (by simp))]
    rw [ih (cur ++ [a]) (fun c hc => hall c (by simp [hc]))]
    have h1 : cur ++ [a] ++ v = cur ++ a :: v := by simp
    have h2 : cur ++ a :: v ≠ [] := by simp
    rw [h1, if_neg h2]

theorem wordRunsAux_word_break :
    ∀ (w z cur : List Char) (c : Char), (∀ d ∈ w, isWordChar d = true) →
      isWordChar c = false →
      wordRunsAux cur (w ++ c :: z) =
        (if cur ++ w = [] then [] else [cur ++ w]) ++ wordRunsAux [] z := by
  intro w
  induction w with
  | nil =>
    intro z cur c _ hc
    rw [List.nil_append, wordRunsAux, if_neg (by simp [hc]), List.append_nil]
  | cons a v ih =>
    intro z cur c hall hc
    rw [List.cons_append, wordRunsAux, if_pos (hall a (by simp))]
    rw [ih z (cur ++ [a]) c (fun d hd => hall d (by simp [hd])) hc]
    have h1 : cur ++ [a] ++ v = cur ++ a :: v := by simp
    have h2 : cur ++ a :: v ≠ [] := by simp
    rw [h1, if_neg h2]

theorem wordRunsAux_nonword_nil :
    ∀ (v : List Char), (∀ c ∈ v, isWordChar c = false) → wordRunsAux [] v = [] := by
  intro v
  induction v with
  | nil =>
    intro _
    rfl
  | cons a w ih =>
    intro hall
    rw [wordRunsAux, if_neg (by simp [hall a (by simp)])]
    rw [emit_nil, List.nil_append]
    exact ih (fun c hc => hall c (by simp [hc]))

theorem wordRunsAux_append_nonword :
    ∀ (x v cur : List Char), (∀ c ∈ v, isWordChar c = false) →
      wordRunsAux cur (x ++ v) = wordRunsAux cur x := by
  intro x
  induction x with
  | nil =>
    intro v cur hall
    rw [List.nil_append, wordRunsAux]
    cases v with
    | nil => rfl
    | cons a w =>
      rw [wordRunsAux, if_neg (by simp [hall a (by simp)])]
      rw [wordRunsAux_nonword_nil w (fun c hc => hall c (by simp [hc]))]
      rw [List.append_nil]
  | cons a cs ih =>
    intro v cur hall
    rw [List.cons_append, wordRunsAux, wordRunsAux]
    by_cases ha : isWordChar a
    · rw [if_pos ha, if_pos ha]
      exact ih v (cur ++ [a]) hall
    · rw [if_neg ha, if_neg ha, ih v [] hall]

theorem wordRunsAux_prepend_nonword :
    ∀ (v x : List Char), (∀ c ∈ v, isWordChar c = false) →
      wordRunsAux [] (v ++ x) = wordRunsAux [] x := by
  intro v
  induction v with
  | nil =>
    intro x _
    rfl
  | cons a w ih =>
    intro x hall
    rw [List.cons_append, wordRunsAux, if_neg (by simp [hall a (by simp)])]
    rw [emit_nil, List.nil_append]
    exact ih x (fun c hc => hall c (by simp [hc]))

theorem wordRuns_removeStopwords :
    ∀ (x cur : List Char), (∀ c ∈ cur, isWordChar c = true) →
      wordRuns (removeStopwordsAux cur x) =
        (wordRunsAux cur x).filter (fun r => !isStopword r) := by
  intro x
  induction x with
  | nil =>
    intro cur hcur
    rw [removeStopwordsAux, wordRunsAux]
    by_cases hs : isStopword cur
    · rw [if_pos hs]
      have hcne : cur ≠ [] := by
        intro h0
        rw [h0, isStopword_nil] at hs
        exact Bool.false_ne_true hs
      rw [if_neg hcne]
      simp [wordRuns, wordRunsAux, hs]
    · rw [if_neg hs]
      by_cases hc : cur = []
      · rw [if_pos hc, hc]
        simp [wordRuns, wordRunsAux]
      · rw [if_neg hc]
        rw [wordRuns, wordRunsAux_allword cur [] hcur]
        simp only [List.nil_append]
        rw [if_neg hc]
        simp [hs]
  | cons a cs ih =>
    intro cur hcur
    rw [removeStopwordsAux, wordRunsAux]
    by_cases ha : isWordChar a
    · rw [if_pos ha, if_pos ha]
      exact ih (cur ++ [a]) (by
        intro c hc
        rcases List.mem_append.mp hc with h | h
        · exact hcur c h
        · simp at h
          rw [h]
          exact ha)
    · rw [if_neg ha, if_neg ha]
      by_cases hs : isStopword cur
      · rw [if_pos hs]
        have hcne : cur ≠ [] := by
          intro h0
          rw [h0, isStopword_nil] at hs
          exact Bool.false_ne_true hs
        rw [if_neg hcne]
        rw [List.nil_append, List.filter_append]
        have h1 : List.filter (fun r => !isStopword r) [cur] = [] := by
          simp [hs]
        rw [h1, List.nil_append]
        rw [wordRuns, wordRunsAux, if_neg (by simp [ha])]
        rw [emit_nil, List.nil_append]
        exact ih [] (by simp)
      · rw [if_neg hs]
        by_cases hc : cur = []
        · rw [if_pos hc, hc, List.nil_append, List.nil_append]
          rw [wordRuns, wordRunsAux, if_neg (by simp [ha])]
          rw [emit_nil, List.nil_append]
          exact ih [] (by simp)
        · rw [if_neg hc]
          rw [List.filter_append]
          have h1 : List.filter (fun r => !isStopword r) [cur] = [cur] := by
            simp [hs]
          rw [h1]
          have ha2 : isWordChar a = false := by simpa using ha
          rw [wordRuns, wordRunsAux_word_break cur (removeStopwordsAux [] cs) [] a hcur ha2]
          rw [List.nil_append, if_neg hc]
          have h2 : wordRunsAux [] (removeStopwordsAux [] cs) =
              (wordRunsAux [] cs).filter (fun r => !isStopword r) := ih [] (by simp)
          rw [h2]

theorem removeStopwordsAux_eq_self :
    ∀ (x cur : List Char), (∀ c ∈ cur, isWordChar c = true) →
      (∀ r ∈ wordRunsAux cur x, isStopword r = false) →
      removeStopwordsAux cur x = cur ++ x := by
  intro x
  induction x with
  | nil =>
    intro cur _ hruns
    rw [removeStopwordsAux, List.append_nil]
    by_cases hc : cur = []
    · rw [if_neg (by rw [hc]; simp [isStopword_nil])]
    · have := hruns cur (by rw [wordRunsAux, if_neg hc]; simp)
      rw [if_neg (by simp [this])]
  | cons a cs ih =>
    intro cur hcur hruns
    rw [removeStopwordsAux]
    by_cases ha : isWordChar a
    · rw [if_pos ha]
      have h2 := ih (cur ++ [a]) (by
        intro c hc
        rcases List.mem_append.mp hc with h | h
        · exact hcur c h
        · simp at h
          rw [h]
          exact ha) (by
        intro r hr
        apply hruns
        rw [wordRunsAux, if_pos ha]
        exact hr)
      rw [h2]
      simp
    · rw [if_neg ha]
      have hstop : isStopword cur = false := by
        by_cases hc : cur = []
        · rw [hc, isStopword_nil]
        · apply hruns
          rw [wordRunsAux, if_neg ha, if_neg hc]
          simp
      have htail : removeStopwordsAux [] cs = cs := by
        have h2 := ih [] (by simp) (by
          intro r hr
          apply hruns
          rw [wordRunsAux, if_neg ha]
          exact List.mem_append_right _ hr)
        simpa using h2
      rw [if_neg (by simp [hstop]), htail]

end WordRunsLemmas

section WordRunsPreserve

theorem wordRunsAux_collapse (p : Char → Bool) (rep : Char)
    (hp : ∀ c, p c = true → isWordChar c = false) (hrep : isWordChar rep = false) :
    ∀ (x cur : List Char) (prev : Bool), (prev = true → cur = []) →
      wordRunsAux cur (collapseRunsAux p rep prev x) = wordRunsAux cur x := by
  intro x
  induction x with
  | nil =>
    intro cur prev _
    rfl
  | cons a cs ih =>
    intro cur prev hinv
    rw [collapseRunsAux]
    by_cases hpa : p a
    · rw [if_pos hpa]
      have hna : isWordChar a = false := hp a hpa
      by_cases hprev : prev = true
      · have hc := hinv hprev
        subst hc
        rw [if_pos hprev, List.nil_append]
        rw [ih [] true (fun _ => rfl)]
        conv_rhs => rw [wordRunsAux]
        rw [if_neg (show ¬isWordChar a = true by rw [hna]; simp), emit_nil, List.nil_append]
      · rw [if_neg hprev, List.singleton_append]
        conv_lhs => rw [wordRunsAux]
        rw [if_neg (show ¬isWordChar rep = true by rw [hrep]; simp)]
        rw [ih [] true (fun _ => rfl)]
        conv_rhs => rw [wordRunsAux]
        rw [if_neg (show ¬isWordChar a = true by rw [hna]; simp)]
    · rw [if_neg hpa]
      by_cases hwa : isWordChar a
      · conv_lhs => rw [wordRunsAux]
        conv_rhs => rw [wordRunsAux]
        rw [if_pos hwa, if_pos hwa]
        exact ih (cur ++ [a]) false (by simp)
      · conv_lhs => rw [wordRunsAux]
        conv_rhs => rw [wordRunsAux]
        rw [if_neg hwa, if_neg hwa, ih [] false (by simp)]

theorem wordRuns_pyStrip (s : List Char) : wordRuns (pyStrip s) = wordRuns s := by
  obtain ⟨v, w, heq, hv, hw⟩ := pyStrip_decomp s
  have hvn : ∀ c ∈ v, isWordChar c = false := fun c hc => space_not_word c (hv c hc)
  have hwn : ∀ c ∈ w, isWordChar c = false := fun c hc => space_not_word c (hw c hc)
  conv_rhs => rw [heq]
  rw [wordRuns, wordRuns, List.append_assoc]
  rw [wordRunsAux_prepend_nonword v (pyStrip s ++ w) hvn]
  rw [wordRunsAux_append_nonword (pyStrip s) w [] hwn]

theorem mem_sepToSpace (s : List Char) (c : Char) (h : c ∈ sepToSpace s) :
    c = ' ' ∨ (c ∈ s ∧ c ≠ '_' ∧ c ≠ '-') := by
  rw [sepToSpace] at h
  obtain ⟨a, ha, hac⟩ := List.mem_map.mp h
  by_cases h1 : a = '_' ∨ a = '-'
  · left
    rw [← hac, if_pos (by simpa using h1)]
  · right
    push_neg at h1
    rw [← hac, if_neg (by simpa using h1)]
    exact ⟨ha, h1⟩

theorem mem_spaceToUnderscore (s : List Char) (c : Char) (h : c ∈ spaceToUnderscore s) :
    c = '_' ∨ (c ∈ s ∧ c ≠ ' ') := by
  rw [spaceToUnderscore] at h
  obtain ⟨a, ha, hac⟩ := List.mem_map.mp h
  by_cases h1 : a = ' '
  · left
    rw [← hac, if_pos h1]
  · right
    rw [← hac, if_neg h1]
    exact ⟨ha, h1⟩

end WordRunsPreserve

section SanitizeProps

theorem removeStopwords_mem_all {P : Char → Prop} (x : List Char)
    (h : ∀ c ∈ x, P c) : ∀ c ∈ removeStopwords x, P c := by
  intro c hc
  rcases removeStopwordsAux_mem x [] c hc with h2 | h2
  · simp at h2
  · exact h c h2

theorem collapseRuns_mem_all {P : Char → Prop} (p : Char → Bool) (rep : Char) (x : List Char)
    (hrep : P rep) (h : ∀ c ∈ x, P c) : ∀ c ∈ collapseRuns p rep x, P c := by
  intro c hc
  rcases collapseRunsAux_mem p rep x false c hc with h2 | h2
  · rw [h2]
    exact hrep
  · exact h c h2

theorem pyStrip_mem_all {P : Char → Prop} (x : List Char)
    (h : ∀ c ∈ x, P c) : ∀ c ∈ pyStrip x, P c :=
  fun c hc => h c (pyStrip_mem x c hc)

theorem stripTrailingNonAlpha_mem_all {P : Char → Prop} (x : List Char)
    (h : ∀ c ∈ x, P c) : ∀ c ∈ stripTrailingNonAlpha x, P c := by
  intro c hc
  obtain ⟨v, hv, _⟩ := stripTrailingNonAlpha_decomp x
  apply h
  rw [hv]
  exact List.mem_append_left v hc

theorem sanitizeCore_eq (b : List Char) :
    sanitizeCore b = stripTrailingNonAlpha (collapseRuns (fun c => c = '_') '_'
      (spaceToUnderscore (pyStrip (collapseRuns pyIsSpace ' '
        (removeStopwords (sepToSpace (removeDigits b))))))) := rfl

theorem r4_props (b : List Char) :
    ∀ c ∈ pyStrip (collapseRuns pyIsSpace ' ' (removeStopwords (sepToSpace (removeDigits b)))),
      c.isDigit = false ∧ c ≠ '-' ∧ c ≠ '_' ∧ (pyIsSpace c = true → c = ' ') := by
  have h2 : ∀ c ∈ sepToSpace (removeDigits b), c.isDigit = false ∧ c ≠ '-' ∧ c ≠ '_' := by
    intro c hc
    rcases mem_sepToSpace _ c hc with rfl | ⟨hmem, hu, hh⟩
    · exact ⟨by decide, by decide, by decide⟩
    · refine ⟨?_, hh, hu⟩
      have := List.of_mem_filter hmem
      simpa using this
  have h3 : ∀ c ∈ removeStopwords (sepToSpace (removeDigits b)),
      c.isDigit = false ∧ c ≠ '-' ∧ c ≠ '_' := removeStopwords_mem_all _ h2
  have h4a : ∀ c ∈ collapseRuns pyIsSpace ' ' (removeStopwords (sepToSpace (removeDigits b))),
      c.isDigit = false ∧ c ≠ '-' ∧ c ≠ '_' :=
    collapseRuns_mem_all _ _ _ ⟨by decide, by decide, by decide⟩ h3
  intro c hc
  have hbasic := pyStrip_mem_all _ h4a c hc
  refine ⟨hbasic.1, hbasic.2.1, hbasic.2.2, ?_⟩
  intro hws
  exact collapseRunsAux_p_eq_rep pyIsSpace ' ' _ false c (pyStrip_mem _ c hc) hws

theorem r4_chain (b : List Char) :
    List.Chain' (fun a b2 => ¬(pyIsSpace a = true ∧ pyIsSpace b2 = true))
      (pyStrip (collapseRuns pyIsSpace ' '
        (removeStopwords (sepToSpace (removeDigits b))))) := by
  have h1 := (collapseRunsAux_chain pyIsSpace ' '
    (removeStopwords (sepToSpace (removeDigits b))) false).1
  obtain ⟨v, w, heq, _, _⟩ := pyStrip_decomp (collapseRuns pyIsSpace ' '
    (removeStopwords (sepToSpace (removeDigits b))))
  apply List.Chain'.infix h1
  exact ⟨v, w, heq.symm⟩

theorem r5_props (b : List Char) :
    ∀ c ∈ spaceToUnderscore (pyStrip (collapseRuns pyIsSpace ' '
        (removeStopwords (sepToSpace (removeDigits b))))),
      c.isDigit = false ∧ c ≠ '-' ∧ pyIsSpace c = false := by
  intro c hc
  rcases mem_spaceToUnderscore _ c hc with rfl | ⟨hmem, hsp⟩
  · exact ⟨by decide, by decide, by decide⟩
  · obtain ⟨hd, hh, _, hws⟩ := r4_props b c hmem
    refine ⟨hd, hh, ?_⟩
    cases hw : pyIsSpace c
    · rfl
    · exact absurd (hws hw) hsp

theorem chain'_imp_mem {α : Type} {R S : α → α → Prop} :
    ∀ {l : List α}, (∀ a ∈ l, ∀ b ∈ l, R a b → S a b) → List.Chain' R l →
      List.Chain' S l := by
  intro l
  induction l with
  | nil =>
    intro _ _
    simp
  | cons x t ih =>
    intro h hc
    rw [List.chain'_cons'] at hc ⊢
    refine ⟨?_, ih (fun a ha b hb hr => h a (by simp [ha]) b (by simp [hb]) hr) hc.2⟩
    intro y hy
    have hymem : y ∈ t := List.mem_of_mem_head? hy
    exact h x (by simp) y (by simp [hymem]) (hc.1 y hy)

theorem r5_chain (b : List Char) :
    List.Chain' (fun a b2 => ¬(a = '_' ∧ b2 = '_'))
      (spaceToUnderscore (pyStrip (collapseRuns pyIsSpace ' '
        (removeStopwords (sepToSpace (removeDigits b)))))) := by
  rw [spaceToUnderscore, List.chain'_map]
  apply chain'_imp_mem ?_ (r4_chain b)
  intro a ha c hc hr hcon
  obtain ⟨h1, h2⟩ := hcon
  have hane : a ≠ '_' := (r4_props b a ha).2.2.1
  have hcne : c ≠ '_' := (r4_props b c hc).2.2.1
  have ha2 : a = ' ' := by
    by_cases hsp : a = ' '
    · exact hsp
    · rw [if_neg hsp] at h1
      exact absurd h1 hane
  have hc2 : c = ' ' := by
    by_cases hsp : c = ' '
    · exact hsp
    · rw [if_neg hsp] at h2
      exact absurd h2 hcne
  exact hr ⟨by rw [ha2]; decide, by rw [hc2]; decide⟩

theorem r5_head (b : List Char) :
    ∀ c, (spaceToUnderscore (pyStrip (collapseRuns pyIsSpace ' '
        (removeStopwords (sepToSpace (removeDigits b)))))).head? = some c → c ≠ '_' := by
  intro c hch
  rw [spaceToUnderscore, List.head?_map] at hch
  obtain ⟨d, hd, hdc⟩ := Option.map_eq_some'.mp hch
  have hdws := pyStrip_head? _ d hd
  have hdmem := List.mem_of_mem_head? (by rw [hd]; rfl)
  have hdne : d ≠ '_' := (r4_props b d hdmem).2.2.1
  have hdsp : d ≠ ' ' := by
    intro h0
    rw [h0] at hdws
    exact absurd hdws (by decide)
  rw [← hdc, if_neg hdsp]
  exact hdne

theorem r6_eq_r5 (b : List Char) :
    collapseRuns (fun c => c = '_') '_'
      (spaceToUnderscore (pyStrip (collapseRuns pyIsSpace ' '
        (removeStopwords (sepToSpace (removeDigits b)))))) =
    spaceToUnderscore (pyStrip (collapseRuns pyIsSpace ' '
        (removeStopwords (sepToSpace (removeDigits b))))) := by
  rw [collapseRuns]
  apply collapseRunsAux_eq_self
  · apply chain'_imp_mem ?_ (r5_chain b)
    intro a _ c _ hr hcon
    apply hr
    constructor
    · simpa using hcon.1
    · simpa using hcon.2
  · intro c _ hcp
    simpa using hcp
  · intro h0
    simp at h0

end SanitizeProps

section SanitizeIdem

theorem sanitizeCore_eq_strip_r5 (b : List Char) :
    sanitizeCore b = stripTrailingNonAlpha (spaceToUnderscore (pyStrip
      (collapseRuns pyIsSpace ' ' (removeStopwords (sepToSpace (removeDigits b)))))) := by
  rw [sanitizeCore_eq, r6_eq_r5]

theorem sanitizeCore_mem_props (b : List Char) :
    ∀ c ∈ sanitizeCore b, c.isDigit = false ∧ c ≠ '-' ∧ pyIsSpace c = false := by
  rw [sanitizeCore_eq_strip_r5]
  exact stripTrailingNonAlpha_mem_all _ (r5_props b)

theorem sanitizeCore_last_alpha (b : List Char) :
    ∀ c, (sanitizeCore b).getLast? = some c → c.isAlpha = true := by
  rw [sanitizeCore_eq_strip_r5]
  exact stripTrailingNonAlpha_last _

theorem sanitizeCore_chain (b : List Char) :
    List.Chain' (fun a b2 => ¬(a = '_' ∧ b2 = '_')) (sanitizeCore b) := by
  rw [sanitizeCore_eq_strip_r5]
  exact List.Chain'.prefix (r5_chain b) (stripTrailingNonAlpha_prefixOf _)

theorem sanitizeCore_head (b : List Char) :
    ∀ c, (sanitizeCore b).head? = some c → c ≠ '_' := by
  rw [sanitizeCore_eq_strip_r5]
  intro c hc
  have hne : stripTrailingNonAlpha (spaceToUnderscore (pyStrip
      (collapseRuns pyIsSpace ' ' (removeStopwords (sepToSpace (removeDigits b)))))) ≠ [] := by
    intro h0
    rw [h0] at hc
    simp at hc
  have hh := prefixOf_head? (stripTrailingNonAlpha_prefixOf _) hne
  rw [hc] at hh
  exact r5_head b c hh

theorem sepToSpace_spaceToUnderscore (b : List Char) :
    sepToSpace (spaceToUnderscore (pyStrip (collapseRuns pyIsSpace ' '
      (removeStopwords (sepToSpace (removeDigits b)))))) =
    pyStrip (collapseRuns pyIsSpace ' ' (removeStopwords (sepToSpace (removeDigits b)))) := by
  rw [sepToSpace, spaceToUnderscore, List.map_map]
  apply map_eq_self_of
  intro c hc
  obtain ⟨_, hh, hu, _⟩ := r4_props b c hc
  by_cases hsp : c = ' '
  · rw [hsp]
    rfl
  · simp only [Function.comp, if_neg hsp]
    rw [if_neg (by simp [hu, hh])]

theorem sanitizeCore_runs (b : List Char) :
    ∀ r ∈ wordRuns (sepToSpace (sanitizeCore b)), isStopword r = false := by
  intro r hr
  obtain ⟨v, hdec, hval⟩ := stripTrailingNonAlpha_decomp (spaceToUnderscore (pyStrip
    (collapseRuns pyIsSpace ' ' (removeStopwords (sepToSpace (removeDigits b))))))
  have hvmem : ∀ c ∈ v, c ∈ spaceToUnderscore (pyStrip (collapseRuns pyIsSpace ' '
      (removeStopwords (sepToSpace (removeDigits b))))) := by
    intro c hcv
    rw [hdec]
    exact List.mem_append_right _ hcv
  have hvnw : ∀ c ∈ sepToSpace v, isWordChar c = false := by
    intro c hcv
    rcases mem_sepToSpace v c hcv with rfl | ⟨hm, hu2, hh2⟩
    · decide
    · have halpha := hval c hm
      have hdig := (r5_props b c (hvmem c hm)).1
      rw [isWordChar, halpha, hdig]
      simp [hu2]
  have hkey : wordRuns (sepToSpace (sanitizeCore b)) =
      wordRuns (pyStrip (collapseRuns pyIsSpace ' '
        (removeStopwords (sepToSpace (removeDigits b))))) := by
    have h1 : sepToSpace (spaceToUnderscore (pyStrip (collapseRuns pyIsSpace ' '
        (removeStopwords (sepToSpace (removeDigits b)))))) =
        sepToSpace (sanitizeCore b) ++ sepToSpace v := by
      conv_lhs => rw [hdec]
      rw [sepToSpace, List.map_append]
      rw [sanitizeCore_eq_strip_r5]
      rfl
    have h2 := sepToSpace_spaceToUnderscore b
    rw [h1] at h2
    calc wordRuns (sepToSpace (sanitizeCore b))
        = wordRuns (sepToSpace (sanitizeCore b) ++ sepToSpace v) :=
          (wordRunsAux_append_nonword _ _ [] hvnw).symm
    _ = wordRuns (pyStrip (collapseRuns pyIsSpace ' '
          (removeStopwords (sepToSpace (removeDigits b))))) := by rw [h2]
  rw [hkey, wordRuns_pyStrip] at hr
  have hcoll : wordRuns (collapseRuns pyIsSpace ' '
      (removeStopwords (sepToSpace (removeDigits b)))) =
      wordRuns (removeStopwords (sepToSpace (removeDigits b))) := by
    rw [collapseRuns]
    exact wordRunsAux_collapse pyIsSpace ' ' space_not_word (by decide) _ [] false
      (fun h => by simp at h)
  rw [hcoll] at hr
  have hfilter : wordRuns (removeStopwords (sepToSpace (removeDigits b))) =
      (wordRuns (sepToSpace (removeDigits b))).filter (fun r2 => !isStopword r2) := by
    rw [removeStopwords, wordRuns]
    exact wordRuns_removeStopwords _ [] (by simp)
  rw [hfilter] at hr
  have := List.of_mem_filter hr
  simpa using this

theorem sanitizeCore_idem (b : List Char) : sanitizeCore (sanitizeCore b) = sanitizeCore b := by
  have hprops := sanitizeCore_mem_props b
  have hlast := sanitizeCore_last_alpha b
  have hchain := sanitizeCore_chain b
  have hhead := sanitizeCore_head b
  have hruns := sanitizeCore_runs b
  have h1 : removeDigits (sanitizeCore b) = sanitizeCore b := by
    rw [removeDigits]
    apply List.filter_eq_self.mpr
    intro c hc
    simp [(hprops c hc).1]
  have h3 : removeStopwords (sepToSpace (sanitizeCore b)) = sepToSpace (sanitizeCore b) := by
    rw [removeStopwords]
    have h0 := removeStopwordsAux_eq_self (sepToSpace (sanitizeCore b)) [] (by simp)
      (fun r hr => hruns r hr)
    simpa using h0
  have humem : ∀ c ∈ sepToSpace (sanitizeCore b), pyIsSpace c = true → c = ' ' := by
    intro c hc
    rcases mem_sepToSpace _ c hc with rfl | ⟨hm, _, _⟩
    · intro _
      rfl
    · intro hws
      exact absurd hws (by simp [(hprops c hm).2.2])
  have huchain : List.Chain' (fun a b2 => ¬(pyIsSpace a = true ∧ pyIsSpace b2 = true))
      (sepToSpace (sanitizeCore b)) := by
    rw [sepToSpace, List.chain'_map]
    apply chain'_imp_mem ?_ hchain
    intro a ha c hc hr hcon
    have h_a : a = '_' := by
      by_cases h0 : a = '_'
      · exact h0
      · have hfa : (if a = '_' || a = '-' then ' ' else a) = a := by
          rw [if_neg (by simp [h0, (hprops a ha).2.1])]
        rw [hfa] at hcon
        exact absurd hcon.1 (by simp [(hprops a ha).2.2])
    have h_c : c = '_' := by
      by_cases h0 : c = '_'
      · exact h0
      · have hfc : (if c = '_' || c = '-' then ' ' else c) = c := by
          rw [if_neg (by simp [h0, (hprops c hc).2.1])]
        rw [hfc] at hcon
        exact absurd hcon.2 (by simp [(hprops c hc).2.2])
    exact hr ⟨h_a, h_c⟩
  have h4a : collapseRuns pyIsSpace ' ' (sepToSpace (sanitizeCore b)) =
      sepToSpace (sanitizeCore b) := by
    rw [collapseRuns]
    exact collapseRunsAux_eq_self pyIsSpace ' ' _ false huchain humem (fun h => by simp at h)
  have h4 : pyStrip (sepToSpace (sanitizeCore b)) = sepToSpace (sanitizeCore b) := by
    apply pyStrip_eq_self
    · intro c hc
      rw [sepToSpace, List.head?_map] at hc
      obtain ⟨d, hd, hdc⟩ := Option.map_eq_some'.mp hc
      have hdmem := List.mem_of_mem_head? (show d ∈ (sanitizeCore b).head? by rw [hd]; rfl)
      have hd_ne : d ≠ '_' := hhead d hd
      have hprop := hprops d hdmem
      rw [← hdc, if_neg (by simp [hd_ne, hprop.2.1])]
      exact hprop.2.2
    · intro c hc
      rw [sepToSpace, List.getLast?_map] at hc
      obtain ⟨d, hd, hdc⟩ := Option.map_eq_some'.mp hc
      have hdal := hlast d hd
      have hne2 : ¬(d = '_' || d = '-') = true := by
        rw [alpha_not_uh d hdal]
        simp
      rw [← hdc, if_neg hne2]
      exact alpha_not_space d hdal
  have h5 : spaceToUnderscore (sepToSpace (sanitizeCore b)) = sanitizeCore b := by
    rw [spaceToUnderscore, sepToSpace, List.map_map]
    apply map_eq_self_of
    intro c hc
    by_cases h0 : c = '_'
    · rw [h0]
      rfl
    · have hp := hprops c hc
      have hg : (if c = '_' || c = '-' then ' ' else c) = c := by
        rw [if_neg (by simp [h0, hp.2.1])]
      simp only [Function.comp, hg]
      rw [if_neg (by
        intro hsp
        rw [hsp] at hp
        exact absurd hp.2.2 (by decide))]
  have h6 : collapseRuns (fun c => c = '_') '_' (sanitizeCore b) = sanitizeCore b := by
    rw [collapseRuns]
    apply collapseRunsAux_eq_self
    · apply chain'_imp_mem ?_ hchain
      intro a _ c _ hr hcon
      exact hr ⟨by simpa using hcon.1, by simpa using hcon.2⟩
    · intro c _ h
      simpa using h
    · intro h
      simp at h
  have h7 : stripTrailingNonAlpha (sanitizeCore b) = sanitizeCore b :=
    stripTrailingNonAlpha_eq_self _ hlast
  rw [sanitizeCore_eq (sanitizeCore b), h1, h3, h4a, h4, h5, h6, h7]

theorem sanitize_base_idem (b : List Char) :
    sanitize_base (sanitize_base b) = sanitize_base b := by
  by_cases h0 : sanitizeCore b = []
  · have hb : sanitize_base b = "converted".toList := by
      rw [sanitize_base, if_pos h0]
    rw [hb]
    decide
  · have hb : sanitize_base b = sanitizeCore b := by
      rw [sanitize_base, if_neg h0]
    rw [hb, sanitize_base, sanitizeCore_idem, if_neg h0]

theorem sanitize_base_last_alpha (b : List Char) :
    ∀ c, (sanitize_base b).getLast? = some c → c.isAlpha = true := by
  by_cases h0 : sanitizeCore b = []
  · rw [sanitize_base, if_pos h0]
    intro c hc
    have heval : ("converted".toList).getLast? = some 'd' := rfl
    rw [heval] at hc
    injection hc with h3
    rw [← h3]
    decide
  · rw [sanitize_base, if_neg h0]
    exact sanitizeCore_last_alpha b

theorem sanitize_base_ne_nil (b : List Char) : sanitize_base b ≠ [] := by
  by_cases h0 : sanitizeCore b = []
  · rw [sanitize_base, if_pos h0]
    decide
  · rw [sanitize_base, if_neg h0]
    exact h0

end SanitizeIdem

section SafeOutLemmas

theorem findIdx?_decomp {α : Type} (p : α → Bool) :
    ∀ (l : List α) (i j : Nat), List.findIdx? p l i = some j →
      ∃ v c w, l = v ++ c :: w ∧ i + v.length = j ∧ p c = true ∧ ∀ x ∈ v, p x = false := by
  intro l
  induction l with
  | nil =>
    intro i j h
    rw [List.findIdx?_nil] at h
    exact absurd h (by simp)
  | cons a t ih =>
    intro i j h
    rw [List.findIdx?_cons] at h
    by_cases hp : p a = true
    · rw [if_pos hp] at h
      injection h with hj
      exact ⟨[], a, t, rfl, by simpa using hj, hp, by simp⟩
    · rw [if_neg hp] at h
      obtain ⟨v, c, w, h1, h2, h3, h4⟩ := ih (i + 1) j h
      refine ⟨a :: v, c, w, by simp [h1], by simp; omega, h3, ?_⟩
      intro x hx
      rcases List.mem_cons.mp hx with rfl | hx2
      · simpa using hp
      · exact h4 x hx2

theorem findIdx?_of_decomp {α : Type} (p : α → Bool) :
    ∀ (v : List α) (c : α) (w : List α) (i : Nat), (∀ x ∈ v, p x = false) → p c = true →
      List.findIdx? p (v ++ c :: w) i = some (i + v.length) := by
  intro v
  induction v with
  | nil =>
    intro c w i _ hc
    rw [List.nil_append, List.findIdx?_cons, if_pos hc]
    simp
  | cons a u ih =>
    intro c w i hall hc
    rw [List.cons_append, List.findIdx?_cons, if_neg (by simp [hall a (by simp)])]
    rw [ih c w (i + 1) (fun x hx => hall x (by simp [hx])) hc]
    congr 1
    simp
    omega

theorem pyExtIdx_append_ext (stem tail : List Char) (hstem : stem ≠ [])
    (htail : tail ≠ []) (hnd : ∀ c ∈ tail, c ≠ '.') :
    pyExtIdx (stem ++ '.' :: tail) = some stem.length := by
  have hrev : (stem ++ '.' :: tail).reverse = tail.reverse ++ '.' :: stem.reverse := by
    simp
  have hfind : List.findIdx? (fun c => c = '.') (stem ++ '.' :: tail).reverse 0 =
      some tail.length := by
    rw [hrev]
    rw [findIdx?_of_decomp (fun c => c = '.') tail.reverse '.' stem.reverse 0
      (fun x hx => by simp [hnd x (List.mem_reverse.mp hx)]) (by simp)]
    simp
  have hlen : (stem ++ '.' :: tail).length = stem.length + tail.length + 1 := by
    simp
    omega
  have hs : 0 < stem.length := List.length_pos.mpr hstem
  have ht : 0 < tail.length := List.length_pos.mpr htail
  rw [pyExtIdx, hfind]
  show (if 0 < (stem ++ '.' :: tail).length - 1 - tail.length ∧
        (stem ++ '.' :: tail).length - 1 - tail.length + 1 < (stem ++ '.' :: tail).length then
      some ((stem ++ '.' :: tail).length - 1 - tail.length)
    else none) = some stem.length
  rw [hlen, if_pos (by omega)]
  congr 1
  omega

theorem pyStem_append_ext (stem tail : List Char) (hstem : stem ≠ [])
    (htail : tail ≠ []) (hnd : ∀ c ∈ tail, c ≠ '.') :
    pyStem (stem ++ '.' :: tail) = stem := by
  rw [pyStem, pyExtIdx_append_ext stem tail hstem htail hnd]
  exact List.take_left stem ('.' :: tail)

theorem pySuffix_append_ext (stem tail : List Char) (hstem : stem ≠ [])
    (htail : tail ≠ []) (hnd : ∀ c ∈ tail, c ≠ '.') :
    pySuffix (stem ++ '.' :: tail) = '.' :: tail := by
  rw [pySuffix, pyExtIdx_append_ext stem tail hstem htail hnd]
  exact List.drop_left stem ('.' :: tail)

theorem pySuffix_shape (name : List Char) (hne : pySuffix name ≠ []) :
    ∃ tail, pySuffix name = '.' :: tail ∧ tail ≠ [] ∧ ∀ c ∈ tail, c ≠ '.' := by
  cases hidx : pyExtIdx name with
  | none =>
    rw [pySuffix, hidx] at hne
    exact absurd rfl hne
  | some i =>
    have hdrop : pySuffix name = name.drop i := by
      rw [pySuffix, hidx]
    rw [pyExtIdx] at hidx
    cases hj : List.findIdx? (fun c => c = '.') name.reverse 0 with
    | none =>
      rw [hj] at hidx
      exact absurd hidx (by simp)
    | some j =>
      rw [hj] at hidx
      have hidx2 : (if 0 < name.length - 1 - j ∧ name.length - 1 - j + 1 < name.length then
          some (name.length - 1 - j) else none) = some i := hidx
      by_cases hcond : 0 < name.length - 1 - j ∧ name.length - 1 - j + 1 < name.length
      · rw [if_pos hcond] at hidx2
        injection hidx2 with hieq
        obtain ⟨v, c, w, hdec, hvlen, hpc, hvfree⟩ := findIdx?_decomp _ _ 0 j hj
        have hc : c = '.' := by simpa using hpc
        subst hc
        have hname : name = w.reverse ++ '.' :: v.reverse := by
          have h2 := congrArg List.reverse hdec
          rw [List.reverse_reverse] at h2
          rw [h2]
          simp
        have hvj : v.length = j := by simpa using hvlen
        have hlen : name.length = w.length + v.length + 1 := by
          rw [hname]
          simp
          omega
        have hwi : w.length = i := by
          rw [← hieq, hlen, hvj]
          omega
        have hjpos : 0 < j := by
          by_contra hj0
          push_neg at hj0
          interval_cases j
          rw [hlen, hvj] at hcond
          omega
        refine ⟨v.reverse, ?_, ?_, ?_⟩
        · rw [hdrop, hname]
          have hwr : i = (w.reverse).length := by simp [hwi]
          rw [hwr]
          exact List.drop_left w.reverse ('.' :: v.reverse)
        · intro h0
          have := congrArg List.length h0
          simp [hvj] at this
          omega
        · intro c hcv
          have := hvfree c (List.mem_reverse.mp hcv)
          simpa using this
      · rw [if_neg hcond] at hidx2
        exact absurd hidx2 (by simp)

theorem toLowerStr_idem (x : List Char) : toLowerStr (toLowerStr x) = toLowerStr x := by
  rw [toLowerStr, toLowerStr, List.map_map]
  exact List.map_congr_left (fun a _ => toLower_toLower a)

end SafeOutLemmas

section SafeOutStem

theorem safe_out_stem_empty (srcPosix : List Char) (flat : Bool) :
    safe_out_stem srcPosix flat [] =
      sanitize_base (pyStem (relName srcPosix flat)) := by
  have hlast := sanitize_base_last_alpha (pyStem (relName srcPosix flat))
  have hr : pyRstripUH (sanitize_base (pyStem (relName srcPosix flat))) =
      sanitize_base (pyStem (relName srcPosix flat)) := pyRstripUH_eq_self _ hlast
  have hne := sanitize_base_ne_nil (pyStem (relName srcPosix flat))
  simp only [safe_out_stem, ne_eq, not_true_eq_false, if_false, hr]
  rw [if_neg hne]

theorem rstrip_convert_last (x : List Char)
    (hx : ∀ c, x.getLast? = some c → c.isAlpha = true) :
    ∀ c, (if pyRstripUH x = [] then "converted".toList else pyRstripUH x).getLast? = some c →
      c.isAlpha = true := by
  rw [pyRstripUH_eq_self x hx]
  by_cases h0 : x = []
  · rw [if_pos h0]
    intro c hc
    have heval : ("converted".toList).getLast? = some 'd' := rfl
    rw [heval] at hc
    injection hc with h3
    rw [← h3]
    decide
  · rw [if_neg h0]
    exact hx

theorem safe_out_stem_last_alpha (srcPosix suffix : List Char) (flat : Bool) :
    ∀ c, (safe_out_stem srcPosix flat suffix).getLast? = some c → c.isAlpha = true := by
  have hbase := sanitize_base_last_alpha (pyStem (relName srcPosix flat))
  simp only [safe_out_stem]
  apply rstrip_convert_last
  by_cases hsuf : suffix = []
  · rw [if_neg (show ¬suffix ≠ [] by simp [hsuf])]
    exact hbase
  · rw [if_pos (show suffix ≠ [] from hsuf)]
    by_cases hns : normalizeSuffixLabel suffix = []
    · rw [if_neg (show ¬normalizeSuffixLabel suffix ≠ [] by simp [hns])]
      exact hbase
    · rw [if_pos (show normalizeSuffixLabel suffix ≠ [] from hns)]
      by_cases hcand : stripTrailingNonAlpha (collapseRuns (fun c => c = '_') '_'
          (sanitize_base (pyStem (relName srcPosix flat)) ++
            '_' :: normalizeSuffixLabel suffix)) = []
      · rw [if_pos hcand]
        exact hbase
      · rw [if_neg hcand]
        exact stripTrailingNonAlpha_last _

theorem if_convert_ne_nil (x : List Char) :
    (if x = [] then "converted".toList else x) ≠ [] := by
  by_cases h : x = []
  · rw [if_pos h]
    decide
  · rw [if_neg h]
    exact h

theorem safe_out_stem_ne_nil (srcPosix suffix : List Char) (flat : Bool) :
    safe_out_stem srcPosix flat suffix ≠ [] := by
  simp only [safe_out_stem]
  exact if_convert_ne_nil _

theorem uint32_le_toNat {a b : UInt32} (h : a ≤ b) : a.toNat ≤ b.toNat := h

theorem alpha_not_digit (c : Char) (h : c.isAlpha = true) : c.isDigit = false := by
  simp [Char.isAlpha, Char.isUpper, Char.isLower] at h
  simp [Char.isDigit]
  intro h1
  have h1' : (48 : UInt32).toNat ≤ c.val.toNat := uint32_le_toNat h1
  show (57 : UInt32).toNat < c.val.toNat
  have e1 : (48 : UInt32).toNat = 48 := rfl
  have e2 : (57 : UInt32).toNat = 57 := rfl
  have e3 : (65 : UInt32).toNat = 65 := rfl
  have e4 : (90 : UInt32).toNat = 90 := rfl
  have e5 : (97 : UInt32).toNat = 97 := rfl
  have e6 : (122 : UInt32).toNat = 122 := rfl
  rw [e1] at h1'
  rw [e2]
  rcases h with ⟨h3, h4⟩ | ⟨h3, h4⟩
  · have h3' := uint32_le_toNat h3
    have h4' := uint32_le_toNat h4
    rw [e3] at h3'
    rw [e4] at h4'
    omega
  · have h3' := uint32_le_toNat h3
    have h4' := uint32_le_toNat h4
    rw [e5] at h3'
    rw [e6] at h4'
    omega

theorem sanitizeCore_mem_sub {P : Char → Prop} (b : List Char) (hsp : P ' ') (huh : P '_')
    (hb : ∀ c ∈ b, P c) : ∀ c ∈ sanitizeCore b, P c := by
  have h1 : ∀ c ∈ removeDigits b, P c := fun c hc => hb c (List.mem_of_mem_filter hc)
  have h2 : ∀ c ∈ sepToSpace (removeDigits b), P c := by
    intro c hc
    rcases mem_sepToSpace _ c hc with rfl | ⟨hc2, _, _⟩
    · exact hsp
    · exact h1 c hc2
  have h3 := removeStopwords_mem_all _ h2
  have h4 := collapseRuns_mem_all pyIsSpace ' ' _ hsp h3
  have h5 := pyStrip_mem_all _ h4
  have h6 : ∀ c ∈ spaceToUnderscore (pyStrip (collapseRuns pyIsSpace ' '
      (removeStopwords (sepToSpace (removeDigits b))))), P c := by
    intro c hc
    rcases mem_spaceToUnderscore _ c hc with rfl | ⟨hc2, _⟩
    · exact huh
    · exact h5 c hc2
  rw [sanitizeCore_eq_strip_r5]
  exact stripTrailingNonAlpha_mem_all _ h6

theorem sanitize_base_mem_sub {P : Char → Prop} (b : List Char) (hsp : P ' ') (huh : P '_')
    (hconv : ∀ c ∈ ("converted".toList : List Char), P c)
    (hb : ∀ c ∈ b, P c) : ∀ c ∈ sanitize_base b, P c := by
  rw [sanitize_base]
  by_cases h0 : sanitizeCore b = []
  · rw [if_pos h0]
    exact hconv
  · rw [if_neg h0]
    exact sanitizeCore_mem_sub b hsp huh hb

theorem pyName_no_slash (p : List Char) : ∀ c ∈ pyName p, c ≠ '/' := by
  intro c hc
  rw [pyName, List.mem_reverse] at hc
  have h2 := List.mem_takeWhile_imp hc
  simpa using h2

theorem relName_flat (p : List Char) : relName p true = pyName p := by
  rw [relName, if_pos rfl]

theorem relName_no_slash (srcPosix : List Char) (flat : Bool) :
    ∀ c ∈ relName srcPosix flat, c ≠ '/' := by
  intro c hc
  cases flat with
  | true =>
    rw [relName_flat] at hc
    exact pyName_no_slash srcPosix c hc
  | false =>
    rw [relName, if_neg (by simp)] at hc
    obtain ⟨a, _, hac⟩ := List.mem_map.mp hc
    by_cases ha : a = '/'
    · rw [← hac, if_pos ha]
      decide
    · rw [← hac, if_neg ha]
      exact ha

theorem pyStem_subset (name : List Char) : ∀ c ∈ pyStem name, c ∈ name := by
  intro c hc
  rw [pyStem] at hc
  cases h : pyExtIdx name with
  | some i =>
    rw [h] at hc
    exact List.take_subset i name hc
  | none =>
    rw [h] at hc
    exact hc

theorem pySuffix_subset (name : List Char) : ∀ c ∈ pySuffix name, c ∈ name := by
  intro c hc
  rw [pySuffix] at hc
  cases h : pyExtIdx name with
  | some i =>
    rw [h] at hc
    exact List.drop_subset i name hc
  | none =>
    rw [h] at hc
    simp at hc

theorem pyName_eq_self (p : List Char) (h : ∀ c ∈ p, c ≠ '/') : pyName p = p := by
  have ht : p.reverse.takeWhile (fun c => c ≠ '/') = p.reverse :=
    List.takeWhile_eq_self_iff.mpr
      (fun c hc => by simpa using h c (List.mem_reverse.mp hc))
  rw [pyName, ht, List.reverse_reverse]

theorem toLowerStr_cons_dot (tail : List Char) :
    toLowerStr ('.' :: tail) = '.' :: toLowerStr tail := by
  rw [toLowerStr, List.map_cons, toLowerStr]
  congr 1

end SafeOutStem

section C6C7

/-- C6: `safe_out_path` is NOT idempotent for an arbitrary suffix — with the
same non-empty suffix the label is appended a second time.  Counterexample:
`song.wav` with suffix `mix` maps to `song_mix.wav`, which maps to
`song_mix_mix.wav`. -/
theorem c6_counterexample :
    safe_out_name (safe_out_name ("song.wav".toList) true ("mix".toList)) true
        ("mix".toList) ≠
      safe_out_name ("song.wav".toList) true ("mix".toList) := by
  decide

/-- C6 (amended): for an empty suffix, a source name with a non-empty
extension, and flat naming on re-application, `safe_out_path`'s file name is
idempotent: applying the name builder to its own output reproduces it. -/
theorem c6_theorem (srcPosix : List Char) (flat : Bool)
    (hext : pySuffix (pyName srcPosix) ≠ []) :
    safe_out_name (safe_out_name srcPosix flat []) true [] =
      safe_out_name srcPosix flat [] := by
  obtain ⟨tail, hsuf, htne, htnd⟩ := pySuffix_shape (pyName srcPosix) hext
  set S : List Char := safe_out_stem srcPosix flat [] with hS
  have hs1 : S = sanitize_base (pyStem (relName srcPosix flat)) :=
    hS.trans (safe_out_stem_empty srcPosix flat)
  have hname1 : safe_out_name srcPosix flat [] = S ++ '.' :: toLowerStr tail := by
    rw [safe_out_name, hsuf, toLowerStr_cons_dot, ← hS]
  have hstem_ne : S ≠ [] := by
    rw [hs1]
    exact sanitize_base_ne_nil _
  have htail2_ne : toLowerStr tail ≠ [] := by
    rw [toLowerStr]
    simpa using htne
  have htail2_nd : ∀ c ∈ toLowerStr tail, c ≠ '.' := by
    intro c hc
    rw [toLowerStr] at hc
    obtain ⟨a, ha, hac⟩ := List.mem_map.mp hc
    rw [← hac]
    exact toLower_ne_of_ne a '.' (Or.inl (by decide)) (htnd a ha)
  have hb0 : ∀ c ∈ pyStem (relName srcPosix flat), c ≠ '/' :=
    fun c hc => relName_no_slash srcPosix flat c (pyStem_subset _ c hc)
  have hstem_ns : ∀ c ∈ S, c ≠ '/' := by
    rw [hs1]
    exact sanitize_base_mem_sub _ (by decide) (by decide) (by decide) hb0
  have htail2_ns : ∀ c ∈ toLowerStr tail, c ≠ '/' := by
    intro c hc
    rw [toLowerStr] at hc
    obtain ⟨a, ha, hac⟩ := List.mem_map.mp hc
    rw [← hac]
    refine toLower_ne_of_ne a '/' (Or.inl (by decide)) ?_
    have h1 : a ∈ pySuffix (pyName srcPosix) := by
      rw [hsuf]
      exact List.mem_cons_of_mem _ ha
    exact pyName_no_slash srcPosix a (pySuffix_subset _ a h1)
  have hname2_ns : ∀ c ∈ S ++ '.' :: toLowerStr tail, c ≠ '/' := by
    intro c hc
    rcases List.mem_append.mp hc with h | h
    · exact hstem_ns c h
    · rcases List.mem_cons.mp h with rfl | h2
      · decide
      · exact htail2_ns c h2
  have hpn : pyName (S ++ '.' :: toLowerStr tail) = S ++ '.' :: toLowerStr tail :=
    pyName_eq_self _ hname2_ns
  have hps : pyStem (S ++ '.' :: toLowerStr tail) = S :=
    pyStem_append_ext _ _ hstem_ne htail2_ne htail2_nd
  have hpsuf : pySuffix (S ++ '.' :: toLowerStr tail) = '.' :: toLowerStr tail :=
    pySuffix_append_ext _ _ hstem_ne htail2_ne htail2_nd
  rw [hname1, safe_out_name, safe_out_stem_empty, relName_flat, hpn, hps, hpsuf]
  rw [hs1, sanitize_base_idem, toLowerStr_cons_dot, toLowerStr_idem]

theorem c6_witness :
    pySuffix (pyName ("song.wav".toList)) ≠ [] ∧
    safe_out_name (safe_out_name ("song.wav".toList) true []) true [] =
      safe_out_name ("song.wav".toList) true [] :=
  ⟨by decide, c6_theorem ("song.wav".toList) true (by decide)⟩

/-- C7: the stem built by `safe_out_path` is never empty and never ends in a
digit, an underscore or a hyphen, and when sanitization removes everything the
placeholder `converted` is substituted. -/
theorem c7_theorem (srcPosix suffix : List Char) (flat : Bool) :
    (safe_out_stem srcPosix flat suffix ≠ [] ∧
      ∀ c, (safe_out_stem srcPosix flat suffix).getLast? = some c →
        c.isDigit = false ∧ c ≠ '_' ∧ c ≠ '-') ∧
    (∀ b : List Char, sanitizeCore b = [] → sanitize_base b = "converted".toList) := by
  refine ⟨⟨safe_out_stem_ne_nil srcPosix suffix flat, ?_⟩, ?_⟩
  · intro c hc
    have ha := safe_out_stem_last_alpha srcPosix suffix flat c hc
    refine ⟨alpha_not_digit c ha, ?_, ?_⟩
    · intro h
      rw [h] at ha
      exact absurd ha (by decide)
    · intro h
      rw [h] at ha
      exact absurd ha (by decide)
  · intro b hb
    rw [sanitize_base, if_pos hb]

end C6C7
